import Mathlib

/-!
# pico: a shallow embedding of `pico.c`

The editor of `pico.c` keeps its document in the global `struct editorConfig E`.
Here that global is an explicit value of type `editorConfig` which every
operation takes and returns.

Representation.

* A byte is a natural number (its unsigned value, `0 .. 255`).
* A row `erow` holds the bytes `chars[0 .. size)` and `render[0 .. rsize)` as
  lists; `size` and `rsize` are the lengths of these lists.  The terminating
  NUL that the C code keeps behind each buffer is not part of the list.
* `E.row` is the list of the `numrows` rows.
* C `int` values are unbounded integers (`Int`); no claim below depends on
  wrap-around.
* A C run that leaves the memory described by this representation (a row index
  outside `[0, numrows)`, a byte index outside `[0, size)`, a negative length)
  has no result: the operation returns `none`.
-/

namespace Pico

/-! ## Constants -/

/-- The constant `#define KILO_TAB_STOP 8`. -/
def KILO_TAB_STOP : Int := 8

/-- The constant `#define KILO_QUIT_CONFIRM 2`. -/
def KILO_QUIT_CONFIRM : Int := 2

/-- The function-like definition `#define CTRL_KEY(k) ((k) & 0x1f)`. -/
def CTRL_KEY (k : Char) : Int := ((Nat.land k.toNat 0x1f : Nat) : Int)

/-- Key code `BACKSPACE = 127` of `enum editorKey`. -/
def BACKSPACE : Int := 127
/-- Key code `ARROW_LEFT = 1000`. -/
def ARROW_LEFT : Int := 1000
/-- Key code `ARROW_RIGHT`. -/
def ARROW_RIGHT : Int := 1001
/-- Key code `ARROW_UP`. -/
def ARROW_UP : Int := 1002
/-- Key code `ARROW_DOWN`. -/
def ARROW_DOWN : Int := 1003
/-- Key code `DEL_KEY`. -/
def DEL_KEY : Int := 1004
/-- Key code `END_KEY`. -/
def END_KEY : Int := 1005
/-- Key code `HOME_KEY`. -/
def HOME_KEY : Int := 1006
/-- Key code `PAGE_UP`. -/
def PAGE_UP : Int := 1007
/-- Key code `PAGE_DOWN`. -/
def PAGE_DOWN : Int := 1008

/-- The byte `'\t'`. -/
def TAB : Nat := 9
/-- The byte `'\n'`. -/
def NL : Nat := 10
/-- The byte `'\r'`. -/
def CR : Nat := 13
/-- The byte `' '`. -/
def SPACE : Nat := 32

/-! ## Data -/

/-- The row type `struct erow`: `chars[0 .. size)` and `render[0 .. rsize)`. -/
structure erow where
  chars : List Nat
  render : List Nat
deriving DecidableEq, Repr

/-- The field `size` of a row. -/
def erow.size (row : erow) : Int := (row.chars.length : Int)

/-- The field `rsize` of a row. -/
def erow.rsize (row : erow) : Int := (row.render.length : Int)

/-- The editor state `struct editorConfig` (file name, status message and
terminal settings are not represented). -/
structure editorConfig where
  cx : Int
  cy : Int
  rx : Int
  coloff : Int
  rowoff : Int
  screenrows : Int
  screencols : Int
  dirty : Int
  row : List erow
deriving DecidableEq, Repr

/-- The field `numrows` of the editor state. -/
def editorConfig.numrows (E : editorConfig) : Int := (E.row.length : Int)

/-- The row `E.row[i]`, when `i` is inside `[0, numrows)`. -/
def editorConfig.getRow (E : editorConfig) (i : Int) : Option erow :=
  if 0 ≤ i then E.row[i.toNat]? else none

/-- The assignment `E.row[i] = r` for an index inside `[0, numrows)`. -/
def editorConfig.setRow (E : editorConfig) (i : Int) (r : erow) : editorConfig :=
  { E with row := E.row.set i.toNat r }

/-! ## Text row operations -/

/-- The inner loop `while(j%KILO_TAB_STOP != 0) row->render[j++] = ' ';` of
`editorUpdateRow`; `j` is the length of the render bytes written so far.  The
first argument bounds the number of iterations. -/
def editorUpdateRow.pad : Nat → List Nat → List Nat
  | 0, r => r
  | n + 1, r =>
    if (r.length : Int) % KILO_TAB_STOP ≠ 0 then editorUpdateRow.pad n (r ++ [SPACE]) else r

/-- The second loop of `editorUpdateRow` over `chars[i .. size)`; the second
argument is `render[0 .. j)`. -/
def editorUpdateRow.loop : List Nat → List Nat → List Nat
  | [], r => r
  | c :: cs, r =>
    if c = TAB then editorUpdateRow.loop cs (editorUpdateRow.pad 8 (r ++ [SPACE]))
    else editorUpdateRow.loop cs (r ++ [c])

/-- The function `editorUpdateRow`: recompute `render`/`rsize` from `chars`/`size`. -/
def editorUpdateRow (row : erow) : erow :=
  { row with render := editorUpdateRow.loop row.chars [] }

/-- One iteration of the column loops of `editorRowCxToRx` and
`editorRowRxToCx` on the byte `c`:
`if(c=='\t') rx += (KILO_TAB_STOP - 1) - (rx % KILO_TAB_STOP); rx++;`. -/
def rxStep (c : Nat) (rx : Int) : Int :=
  (if c = TAB then rx + ((KILO_TAB_STOP - 1) - (rx % KILO_TAB_STOP)) else rx) + 1

/-- The loop `for(i=0; i<cx; i++)` of `editorRowCxToRx`: the first argument is
the number of iterations left, the second is `chars[i .. size)`. -/
def editorRowCxToRx.loop : Nat → List Nat → Int → Option Int
  | 0, _, rx => some rx
  | _ + 1, [], _ => none
  | n + 1, c :: cs, rx => editorRowCxToRx.loop n cs (rxStep c rx)

/-- The function `editorRowCxToRx`. -/
def editorRowCxToRx (row : erow) (cx : Int) : Option Int :=
  editorRowCxToRx.loop cx.toNat row.chars 0

/-- The loop `for(cx=0; cx<row->size; cx++)` of `editorRowRxToCx` over
`chars[cx .. size)`. -/
def editorRowRxToCx.loop (rx : Int) : List Nat → Int → Int → Int
  | [], cx, _ => cx
  | c :: cs, cx, cur_rx =>
    if rxStep c cur_rx > rx then cx else editorRowRxToCx.loop rx cs (cx + 1) (rxStep c cur_rx)

/-- The function `editorRowRxToCx`. -/
def editorRowRxToCx (row : erow) (rx : Int) : Int :=
  editorRowRxToCx.loop rx row.chars 0 0

/-- The function `editorInsertRow(t, s, len)`, with `s` the bytes `s[0 .. len)`:
the `memmove` shifts `row[t .. numrows)` up by one, the new row gets a copy of
`s` and is rendered. -/
def editorInsertRow (E : editorConfig) (t : Int) (s : List Nat) : editorConfig :=
  if t < 0 ∨ t > E.numrows then E
  else
    { E with
      row := E.row.take t.toNat ++
        editorUpdateRow { chars := s, render := [] } :: E.row.drop t.toNat
      dirty := E.dirty + 1 }

/-- The function `editorRowInsertChar(row, idx, c)`.  It changes the row and
`E.dirty`; the value of `E.dirty` is passed in and returned.  The assignment
`row->chars[idx] = c` stores the low byte of the `int c`. -/
def editorRowInsertChar (row : erow) (idx : Int) (c : Int) (dirty : Int) : erow × Int :=
  let idx := if idx < 0 ∨ idx > row.size then row.size else idx
  (editorUpdateRow
    { row with chars := row.chars.take idx.toNat ++ (c % 256).toNat :: row.chars.drop idx.toNat },
   dirty + 1)

/-- The function `editorRowDelChar(row, t)`, with `E.dirty` passed in and
returned.  The guard `t<0 && t>=row->size` is the one of the source.  For
`0 <= t < size` the `memmove` closes the gap at `t`; for `t == size > 0` it
moves no byte and `size--` drops the last byte; every other `t` reads or writes
outside the row (or leaves `size` negative). -/
def editorRowDelChar (row : erow) (t : Int) (dirty : Int) : Option (erow × Int) :=
  if t < 0 ∧ t ≥ row.size then some (row, dirty)
  else if 0 ≤ t ∧ t < row.size then
    some (editorUpdateRow { row with chars := row.chars.eraseIdx t.toNat }, dirty + 1)
  else if t = row.size ∧ 0 < row.size then
    some (editorUpdateRow { row with chars := row.chars.take (row.chars.length - 1) }, dirty + 1)
  else none

/-- The function `editorRowAppendString(row, s, len)`, with `E.dirty` passed in
and returned. -/
def editorRowAppendString (row : erow) (s : List Nat) (dirty : Int) : erow × Int :=
  (editorUpdateRow { row with chars := row.chars ++ s }, dirty + 1)

/-- The function `editorDelRow(t)`.  The guard is `t<0 || t==E.numrows`; an
index above `numrows` passes it and addresses a row outside the buffer. -/
def editorDelRow (E : editorConfig) (t : Int) : Option editorConfig :=
  if t < 0 ∨ t = E.numrows then some E
  else if t < E.numrows then
    some { E with row := E.row.eraseIdx t.toNat, dirty := E.dirty + 1 }
  else none

/-! ## Editor operations -/

/-- The function `editorInsertChar(c)`. -/
def editorInsertChar (E : editorConfig) (c : Int) : Option editorConfig :=
  let E1 := if E.cy = E.numrows then editorInsertRow E E.numrows [] else E
  match E1.getRow E1.cy with
  | none => none
  | some row =>
    let p := editorRowInsertChar row E1.cx c E1.dirty
    some { E1.setRow E1.cy p.1 with dirty := p.2, cx := E1.cx + 1 }

/-- The function `editorInsertNewLine()`.  In the `else` branch the bytes
`&row->chars[E.cx]` of length `row->size - E.cx` are the suffix of the row from
column `cx`, which exists for `0 <= cx <= size`. -/
def editorInsertNewLine (E : editorConfig) : Option editorConfig :=
  if E.cx = 0 then
    let E1 := editorInsertRow E E.cy []
    some { E1 with cy := E1.cy + 1, cx := 0 }
  else
    match E.getRow E.cy with
    | none => none
    | some row =>
      if 0 ≤ E.cx ∧ E.cx ≤ row.size then
        let E1 := editorInsertRow E (E.cy + 1) (row.chars.drop E.cx.toNat)
        match E1.getRow E1.cy with
        | none => none
        | some row1 =>
          let E2 := E1.setRow E1.cy
            (editorUpdateRow { row1 with chars := row1.chars.take E1.cx.toNat })
          some { E2 with cy := E2.cy + 1, cx := 0 }
      else none

/-- The function `editorDelChar()`. -/
def editorDelChar (E : editorConfig) : Option editorConfig :=
  if E.cy = E.numrows then some E
  else if E.cx = 0 ∧ E.cy = 0 then some E
  else if E.cx > 0 then
    match E.getRow E.cy with
    | none => none
    | some row =>
      match editorRowDelChar row (E.cx - 1) E.dirty with
      | none => none
      | some p => some { E.setRow E.cy p.1 with dirty := p.2, cx := E.cx - 1 }
  else
    match E.getRow (E.cy - 1), E.getRow E.cy with
    | some prev, some row =>
      let p := editorRowAppendString prev row.chars E.dirty
      let E1 := { E.setRow (E.cy - 1) p.1 with dirty := p.2, cx := prev.size }
      match editorDelRow E1 E1.cy with
      | none => none
      | some E2 => some { E2 with cy := E2.cy - 1 }
    | _, _ => none

/-! ## File input and output -/

/-- The function `editorRowsToString(&buflen)`: the pair of the buffer written
by the second loop and the length `*buflen` summed by the first loop. -/
def editorRowsToString (E : editorConfig) : List Nat × Int :=
  (E.row.foldl (fun buff row => buff ++ row.chars ++ [NL]) [],
   E.row.foldl (fun totlen row => totlen + row.size + 1) 0)

/-- The successive results of the library call `getline` on a stream holding the
given bytes: each line ends with its `'\n'`, except a last line that the file
does not terminate; the second argument is the line read so far. -/
def getlines : List Nat → List Nat → List (List Nat)
  | [], line => if line = [] then [] else [line]
  | c :: cs, line =>
    if c = NL then (line ++ [NL]) :: getlines cs [] else getlines cs (line ++ [c])

/-- The loop `while(linelen>0 && (line[linelen-1]=='\n' || line[linelen-1]=='\r')) linelen--;`
of `editorOpen`. -/
def stripLineEnd (line : List Nat) : List Nat :=
  line.rdropWhile (fun c => c == NL || c == CR)

/-- The function `editorOpen(filename)` for a file that `fopen` opens and that
holds the bytes `file`. -/
def editorOpen (E : editorConfig) (file : List Nat) : editorConfig :=
  let E1 := (getlines file []).foldl
    (fun E line => editorInsertRow E E.numrows (stripLineEnd line)) E
  { E1 with dirty := 0 }

/-- The function `editorSave()`.  The file name prompt and the system calls are
the environment: `saved` says whether a file name was available and `open`,
`ftruncate` and `write` all succeeded. -/
def editorSave (E : editorConfig) (saved : Bool) : editorConfig :=
  if saved then { E with dirty := 0 } else E

/-! ## Find -/

/-- The bytes of a C string: those before the first NUL. -/
def cstr (s : List Nat) : List Nat := s.takeWhile (fun c => c != 0)

/-- Whether `hay` begins with the bytes of `needle`. -/
def startsWith : List Nat → List Nat → Bool
  | [], _ => true
  | _ :: _, [] => false
  | n :: ns, h :: hs => n == h && startsWith ns hs

/-- The scan of `strstr`: the offset of the first position of `hay` at which
`needle` begins, counted from `off`. -/
def strstr.scan (needle : List Nat) : List Nat → Nat → Option Nat
  | [], off => if startsWith needle [] then some off else none
  | h :: hs, off =>
    if startsWith needle (h :: hs) then some off else strstr.scan needle hs (off + 1)

/-- The library call `strstr(hay, needle)` on NUL-terminated buffers: the
offset `match - hay` of the first occurrence, or `none` for a null result. -/
def strstr (hay needle : List Nat) : Option Nat :=
  strstr.scan (cstr needle) (cstr hay) 0

/-- The loop `for(int i=0; i<E.numrows; i++)` of `editorFind` over
`row[i .. numrows)`. -/
def editorFind.loop (query : List Nat) (E : editorConfig) : List erow → Int → editorConfig
  | [], _ => E
  | row :: rest, i =>
    match strstr row.render query with
    | some off =>
      { E with cy := i, cx := editorRowRxToCx row (off : Int), rowoff := E.numrows }
    | none => editorFind.loop query E rest (i + 1)

/-- The function `editorFind()`; `query` is what `editorPrompt` returned
(`none` for `NULL`). -/
def editorFind (E : editorConfig) (query : Option (List Nat)) : editorConfig :=
  match query with
  | none => E
  | some q => editorFind.loop q E E.row 0

/-! ## Output -/

/-- The four `if` statements of `editorScroll()` behind the computation of
`E.rx`: the clamps of `rowoff` and `coloff`. -/
def editorScroll.clamp (E1 : editorConfig) : editorConfig :=
  let E2 := if E1.cy < E1.rowoff then { E1 with rowoff := E1.cy } else E1
  let E3 := if E2.cy ≥ E2.rowoff + E2.screenrows then
    { E2 with rowoff := E2.cy - E2.screenrows + 1 } else E2
  let E4 := if E3.rx < E3.coloff then { E3 with coloff := E3.rx } else E3
  let E5 := if E4.rx ≥ E4.coloff + E4.screencols then
    { E4 with coloff := E4.rx - E4.screencols + 1 } else E4
  E5

/-- The function `editorScroll()`: `E.rx` is 0, or `editorRowCxToRx` of the
cursor line when `cy < numrows`; then the offsets are clamped. -/
def editorScroll (E : editorConfig) : Option editorConfig :=
  let rx : Option Int :=
    if E.cy < E.numrows then
      match E.getRow E.cy with
      | none => none
      | some row => editorRowCxToRx row E.cx
    else some 0
  match rx with
  | none => none
  | some rx => some (editorScroll.clamp { E with rx := rx })

/-! ## Input -/

/-- The function `editorMoveCursor(key)`. -/
def editorMoveCursor (E : editorConfig) (key : Int) : editorConfig :=
  if key = ARROW_UP then (if E.cy ≠ 0 then { E with cy := E.cy - 1 } else E)
  else if key = ARROW_DOWN then (if E.cy < E.numrows then { E with cy := E.cy + 1 } else E)
  else if key = ARROW_LEFT then (if E.cx ≠ 0 then { E with cx := E.cx - 1 } else E)
  else if key = ARROW_RIGHT then { E with cx := E.cx + 1 }
  else E

/-- What a call of `editorProcessKeypress` leaves behind: the process has
called `exit(0)`, or it runs on with a new editor state and a new value of the
static counter `quit_times`. -/
inductive Outcome where
  | exited : Outcome
  | running (E : editorConfig) (quit_times : Int) : Outcome
deriving DecidableEq, Repr

/-- The loop `while(times--!=0)` of the page keys: `times` cursor moves with
the given arrow key. -/
def pageMoves : Nat → Int → editorConfig → editorConfig
  | 0, _, E => E
  | times + 1, key, E => pageMoves times key (editorMoveCursor E key)

/-- The function `editorProcessKeypress()` for the key `ch` that
`editorReadKey` returned, from the value `quit_times` of its static counter.
`query` is the answer of the search prompt and `saved` the success of the save,
for the keys that ask for them.  The page-key loop counts `times` down from
`screenrows` to `0`, which it reaches for `screenrows >= 0`. -/
def editorProcessKeypress (E : editorConfig) (quit_times : Int) (ch : Int)
    (query : Option (List Nat)) (saved : Bool) : Option Outcome :=
  if ch = 13 then
    (editorInsertNewLine E).map (fun E1 => Outcome.running E1 KILO_QUIT_CONFIRM)
  else if ch = CTRL_KEY 'q' then
    if E.dirty ≠ 0 ∧ quit_times > 0 then some (Outcome.running E (quit_times - 1))
    else some Outcome.exited
  else if ch = ARROW_UP ∨ ch = ARROW_LEFT ∨ ch = ARROW_DOWN ∨ ch = ARROW_RIGHT then
    some (Outcome.running (editorMoveCursor E ch) KILO_QUIT_CONFIRM)
  else if ch = PAGE_UP ∨ ch = PAGE_DOWN then
    let E1 :=
      if ch = PAGE_UP then { E with cy := E.rowoff }
      else if ch = PAGE_DOWN then
        let E0 := { E with cy := E.rowoff + E.screenrows - 1 }
        if E0.cy > E0.screenrows then { E0 with cy := E0.screenrows } else E0
      else E
    if 0 ≤ E1.screenrows then
      some (Outcome.running
        (pageMoves E1.screenrows.toNat (if ch = PAGE_UP then ARROW_UP else ARROW_DOWN) E1)
        KILO_QUIT_CONFIRM)
    else none
  else if ch = HOME_KEY then
    some (Outcome.running { E with cx := 0 } KILO_QUIT_CONFIRM)
  else if ch = END_KEY then
    if E.cy < E.numrows then
      match E.getRow E.cy with
      | none => none
      | some row => some (Outcome.running { E with cx := row.size } KILO_QUIT_CONFIRM)
    else some (Outcome.running E KILO_QUIT_CONFIRM)
  else if ch = CTRL_KEY 'f' then
    some (Outcome.running (editorFind E query) KILO_QUIT_CONFIRM)
  else if ch = DEL_KEY ∨ ch = CTRL_KEY 'h' ∨ ch = BACKSPACE then
    let E1 := if ch = DEL_KEY then editorMoveCursor E ARROW_RIGHT else E
    (editorDelChar E1).map (fun E2 => Outcome.running E2 KILO_QUIT_CONFIRM)
  else if ch = CTRL_KEY 'l' ∨ ch = 27 then
    some (Outcome.running E KILO_QUIT_CONFIRM)
  else if ch = CTRL_KEY 's' then
    some (Outcome.running (editorSave E saved) KILO_QUIT_CONFIRM)
  else
    (editorInsertChar E ch).map (fun E1 => Outcome.running E1 KILO_QUIT_CONFIRM)

/-- Consecutive calls of `editorProcessKeypress`, one for each key of the list,
threading the editor state and the static counter `quit_times`; it stops when
the process has exited or a call has no result. -/
def processKeys (query : Option (List Nat)) (saved : Bool) :
    List Int → editorConfig → Int → Option Outcome
  | [], E, quit_times => some (Outcome.running E quit_times)
  | ch :: rest, E, quit_times =>
    match editorProcessKeypress E quit_times ch query saved with
    | some (Outcome.running E1 q1) => processKeys query saved rest E1 q1
    | other => other

/-! ## Properties of states used in the statements -/

/-- Render consistency of a row: `render`/`rsize` is what `editorUpdateRow`
computes from `chars`/`size`. -/
def rowConsistent (row : erow) : Prop := editorUpdateRow row = row

instance (row : erow) : Decidable (rowConsistent row) := by
  unfold rowConsistent; infer_instance

/-- Render consistency of every row of the buffer. -/
def allConsistent (E : editorConfig) : Prop := ∀ row ∈ E.row, rowConsistent row

instance (E : editorConfig) : Decidable (allConsistent E) := by
  unfold allConsistent; infer_instance

/-- The size of line `cy`, and `0` for the position `cy = numrows` behind the
last line. -/
def lineSize (E : editorConfig) (cy : Int) : Int :=
  match E.getRow cy with
  | some row => row.size
  | none => 0

/-- The sequence of line contents of the buffer. -/
def contents (E : editorConfig) : List (List Nat) := E.row.map erow.chars

/-- The state `initEditor` builds for a window of the given size. -/
def initEditor (screenrows screencols : Int) : editorConfig :=
  { cx := 0, cy := 0, rx := 0, coloff := 0, rowoff := 0,
    screenrows := screenrows - 2, screencols := screencols, dirty := 0, row := [] }

/-- The state after `initEditor` in a window of 24 rows and 80 columns with the
given lines in the buffer, each rendered by `editorUpdateRow`. -/
def docOf (lines : List (List Nat)) : editorConfig :=
  { initEditor 24 80 with row := lines.map (fun s => editorUpdateRow { chars := s, render := [] }) }

/-! ## Terminal input -/

/-- What one call `read(STDIN_FILENO, &c, 1)` gives: one byte (`read` returned
1), nothing within the time-out (`read` returned 0, or -1 with `EAGAIN`), or
another failure. -/
inductive ReadResult where
  | byte (b : Nat) : ReadResult
  | timeout : ReadResult
  | error : ReadResult
deriving DecidableEq, Repr

/-- One call of `read` on the stream of results still to come; a stream that
has run out gives time-outs. -/
def readByte : List ReadResult → ReadResult × List ReadResult
  | [] => (ReadResult.timeout, [])
  | r :: rest => (r, rest)

/-- The loop `while((nread = read(STDIN_FILENO, &ch, 1))!=1)` of
`editorReadKey`: it repeats after a time-out, calls `die` on another failure,
and never ends on a stream that brings no byte. -/
def editorReadKey.wait : List ReadResult → Option (Nat × List ReadResult)
  | [] => none
  | ReadResult.byte b :: rest => some (b, rest)
  | ReadResult.timeout :: rest => editorReadKey.wait rest
  | ReadResult.error :: _ => none

/-- The conversion of a plain `char` holding the byte `b` to `int`, as in
`return ch;` of `editorReadKey`.  Whether plain `char` is signed is fixed by
the platform (`signedChar`; it is signed on x86-64): a signed `char` holding a
byte from 128 on has the value `b - 256`. -/
def charToInt (signedChar : Bool) (b : Nat) : Int :=
  if signedChar = true ∧ 128 ≤ b then (b : Int) - 256 else (b : Int)

/-- The function `editorReadKey()` on a stream of `read` results: the key it
returns and the stream left, or `none` when it does not return.  `signedChar`
says whether plain `char` is signed; it matters only for `return ch;`, since
the comparisons are with constants below 128, which hold for the same bytes
either way.  The bytes compared are `'\x1b'` = 27, `'['` =
91, `'O'` = 79, `'0'` = 48, `'9'` = 57, `'~'` = 126, `'3'` = 51, `'5'` = 53,
`'6'` = 54, `'7'` = 55, `'8'` = 56, `'A'` = 65, `'B'` = 66, `'C'` = 67,
`'D'` = 68, `'H'` = 72 and `'F'` = 70. -/
def editorReadKey (signedChar : Bool) (input : List ReadResult) :
    Option (Int × List ReadResult) :=
  match editorReadKey.wait input with
  | none => none
  | some (ch, in1) =>
    if ch = 27 then
      match readByte in1 with
      | (ReadResult.byte seq0, in2) =>
        match readByte in2 with
        | (ReadResult.byte seq1, in3) =>
          if seq0 = 91 then
            if 48 ≤ seq1 ∧ seq1 ≤ 57 then
              match readByte in3 with
              | (ReadResult.byte seq2, in4) =>
                if seq2 = 126 then
                  if seq1 = 51 then some (DEL_KEY, in4)
                  else if seq1 = 53 then some (PAGE_UP, in4)
                  else if seq1 = 54 then some (PAGE_DOWN, in4)
                  else if seq1 = 55 then some (HOME_KEY, in4)
                  else if seq1 = 56 then some (END_KEY, in4)
                  else some (27, in4)
                else some (27, in4)
              | (_, in4) => some (27, in4)
            else
              if seq1 = 65 then some (ARROW_UP, in3)
              else if seq1 = 66 then some (ARROW_DOWN, in3)
              else if seq1 = 67 then some (ARROW_RIGHT, in3)
              else if seq1 = 68 then some (ARROW_LEFT, in3)
              else if seq1 = 72 then some (HOME_KEY, in3)
              else if seq1 = 70 then some (END_KEY, in3)
              else some (27, in3)
          else if seq0 = 79 then
            if seq1 = 72 then some (HOME_KEY, in3)
            else if seq1 = 70 then some (END_KEY, in3)
            else some (27, in3)
          else some (27, in3)
        | (_, in3) => some (27, in3)
      | (_, in2) => some (27, in2)
    else some (charToInt signedChar ch, in1)

/-- The escape sequences that the specification lists as recognised, as the
`read` results that follow the escape byte: `[` with one of `A B C D H F`,
`O` with `H` or `F`, and `[` with one of the digits `3 5 6 7 8` and `~`. -/
def recognisedSequence : List ReadResult → Bool
  | ReadResult.byte 91 :: ReadResult.byte seq1 :: rest =>
    seq1 = 65 || seq1 = 66 || seq1 = 67 || seq1 = 68 || seq1 = 72 || seq1 = 70 ||
    ((seq1 = 51 || seq1 = 53 || seq1 = 54 || seq1 = 55 || seq1 = 56) &&
      (match rest with
       | ReadResult.byte 126 :: _ => true
       | _ => false))
  | ReadResult.byte 79 :: ReadResult.byte seq1 :: _ => seq1 = 72 || seq1 = 70
  | _ => false

/-! ## Notions of the specification -/

/-- The smallest multiple of 8 strictly greater than `w`, the width behind a
tab that starts at width `w`. -/
def nextTabStop (w : Int) : Int := 8 * (w / 8 + 1)

/-- The walk of the specification over a sequence of bytes from the width `w`:
a byte that is not a tab adds 1, a tab leads to the next tab stop. -/
def renderWidth : List Nat → Int → Int
  | [], w => w
  | c :: cs, w => renderWidth cs (if c = TAB then nextTabStop w else w + 1)

/-- The call `editorRowDelChar(row, E.cx-1)` that `editorDelChar()` makes, as
the pair of the row and the index `t` it passes; `none` when `editorDelChar`
makes no such call (it returns early, or merges two lines, or the cursor line is
outside the buffer). -/
def editorDelChar.rowDelCharCall (E : editorConfig) : Option (erow × Int) :=
  if E.cy = E.numrows then none
  else if E.cx = 0 ∧ E.cy = 0 then none
  else if E.cx > 0 then
    match E.getRow E.cy with
    | none => none
    | some row => some (row, E.cx - 1)
  else none

/-! ## Column conversion -/

theorem rxStep_gt (c : Nat) (rx : Int) : rx < rxStep c rx := by
  unfold rxStep KILO_TAB_STOP
  split <;> omega

theorem cxLoop_ge : ∀ (n : Nat) (cs : List Nat) (r w : Int),
    editorRowCxToRx.loop n cs r = some w → r ≤ w := by
  intro n
  induction n with
  | zero =>
    intro cs r w h
    simp [editorRowCxToRx.loop] at h
    omega
  | succ n ih =>
    intro cs r w h
    cases cs with
    | nil => simp [editorRowCxToRx.loop] at h
    | cons c cs =>
      simp only [editorRowCxToRx.loop] at h
      have h1 := ih cs _ w h
      have h2 := rxStep_gt c r
      omega

theorem cxLoop_rxLoop : ∀ (n : Nat) (cs : List Nat) (r cx0 : Int), n ≤ cs.length →
    ∃ w, editorRowCxToRx.loop n cs r = some w ∧
      editorRowRxToCx.loop w cs cx0 r = cx0 + (n : Int) := by
  intro n
  induction n with
  | zero =>
    intro cs r cx0 _
    refine ⟨r, rfl, ?_⟩
    cases cs with
    | nil => simp [editorRowRxToCx.loop]
    | cons c cs =>
      have h2 := rxStep_gt c r
      simp [editorRowRxToCx.loop, h2]
  | succ n ih =>
    intro cs r cx0 hlen
    cases cs with
    | nil => simp at hlen
    | cons c cs =>
      have hlen1 : n ≤ cs.length := by simpa using hlen
      obtain ⟨w, hw, hback⟩ := ih cs (rxStep c r) (cx0 + 1) hlen1
      refine ⟨w, by simpa [editorRowCxToRx.loop] using hw, ?_⟩
      have hge := cxLoop_ge n cs _ w hw
      have hnot : ¬ rxStep c r > w := by omega
      simp only [editorRowRxToCx.loop, hnot, if_false, hback]
      push_cast
      omega

/-- Claim C1: for every line and every buffer column `col` with
`0 <= col <= line.size`, `editorRowCxToRx` yields a render column and
`editorRowRxToCx` maps that render column back to `col`. -/
theorem editorRowRxToCx_editorRowCxToRx (row : erow) (col : Int)
    (h0 : 0 ≤ col) (h1 : col ≤ row.size) :
    ∃ rx, editorRowCxToRx row col = some rx ∧ editorRowRxToCx row rx = col := by
  have hlen : col.toNat ≤ row.chars.length := by
    unfold erow.size at h1
    omega
  obtain ⟨w, hw, hback⟩ := cxLoop_rxLoop col.toNat row.chars 0 0 hlen
  refine ⟨w, hw, ?_⟩
  unfold editorRowRxToCx
  rw [hback]
  omega

/-- Claim C1 at the line `"a\tb"` and the column 2 behind the tab. -/
theorem editorRowRxToCx_editorRowCxToRx_witness :
    ∃ rx, editorRowCxToRx { chars := [97, 9, 98], render := [] } 2 = some rx ∧
      editorRowRxToCx { chars := [97, 9, 98], render := [] } rx = 2 :=
  editorRowRxToCx_editorRowCxToRx { chars := [97, 9, 98], render := [] } 2
    (by decide) (by decide)

/-! ## Lists with one element inserted -/

theorem getElem?_insert_lt {α : Type} (l : List α) (x : α) (n i : Nat)
    (hn : n ≤ l.length) (hi : i < n) :
    (l.take n ++ x :: l.drop n)[i]? = l[i]? := by
  rw [List.getElem?_append_left (by simp; omega)]
  simp [List.getElem?_take, hi]

theorem getElem?_insert_eq {α : Type} (l : List α) (x : α) (n : Nat) (hn : n ≤ l.length) :
    (l.take n ++ x :: l.drop n)[n]? = some x := by
  rw [List.getElem?_append_right (by simp)]
  simp [Nat.min_eq_left hn]

theorem getElem?_insert_gt {α : Type} (l : List α) (x : α) (n i : Nat)
    (hn : n ≤ l.length) (hi : n ≤ i) :
    (l.take n ++ x :: l.drop n)[i + 1]? = l[i]? := by
  rw [List.getElem?_append_right (by simp; omega)]
  simp [Nat.min_eq_left hn]
  have : i + 1 - n = (i - n) + 1 := by omega
  rw [this]
  simp
  congr 1
  omega

/-! ## Inserting a row -/

theorem editorInsertRow_row (E : editorConfig) (t : Int) (s : List Nat)
    (h0 : 0 ≤ t) (h1 : t ≤ E.numrows) :
    editorInsertRow E t s =
      { E with
        row := E.row.take t.toNat ++
          editorUpdateRow { chars := s, render := [] } :: E.row.drop t.toNat
        dirty := E.dirty + 1 } := by
  unfold editorInsertRow
  rw [if_neg (by omega)]

/-- Claim C10: `editorInsertRow(t, s)` leaves the state (lines, `numrows`,
`dirty`) unchanged for `t < 0` or `t > numrows`; otherwise `numrows` grows by
one, line `t` holds exactly the bytes of `s`, the lines formerly at `i < t` stay
at `i` and the lines formerly at `i >= t` are at `i + 1`. -/
theorem editorInsertRow_spec (E : editorConfig) (t : Int) (s : List Nat) :
    ((t < 0 ∨ t > E.numrows) → editorInsertRow E t s = E) ∧
    ((0 ≤ t ∧ t ≤ E.numrows) →
      (editorInsertRow E t s).numrows = E.numrows + 1 ∧
      ((editorInsertRow E t s).getRow t).map erow.chars = some s ∧
      (∀ i : Int, 0 ≤ i → i < t → (editorInsertRow E t s).getRow i = E.getRow i) ∧
      (∀ i : Int, t ≤ i → (editorInsertRow E t s).getRow (i + 1) = E.getRow i)) := by
  constructor
  · intro h
    unfold editorInsertRow
    rw [if_pos h]
  · rintro ⟨h0, h1⟩
    rw [editorInsertRow_row E t s h0 h1]
    have hn : t.toNat ≤ E.row.length := by
      unfold editorConfig.numrows at h1
      omega
    refine ⟨?_, ?_, ?_, ?_⟩
    · simp only [editorConfig.numrows, List.length_append, List.length_take, List.length_cons,
        List.length_drop]
      omega
    · simp only [editorConfig.getRow, if_pos h0]
      rw [getElem?_insert_eq _ _ _ hn]
      rfl
    · intro i hi0 hit
      simp only [editorConfig.getRow, if_pos hi0]
      exact getElem?_insert_lt _ _ _ _ hn (by omega)
    · intro i hti
      have hi0 : 0 ≤ i := by omega
      have hi1 : 0 ≤ i + 1 := by omega
      simp only [editorConfig.getRow, if_pos hi0, if_pos hi1]
      have : (i + 1).toNat = i.toNat + 1 := by omega
      rw [this]
      exact getElem?_insert_gt _ _ _ _ hn (by omega)

/-- Claim C10 at the buffer `["a", "b"]`: inserting `"x"` at index 5 changes
nothing, inserting it at index 1 gives `["a", "x", "b"]`. -/
theorem editorInsertRow_spec_witness :
    editorInsertRow
        { initEditor 24 80 with row := [⟨[97], [97]⟩, ⟨[98], [98]⟩] } 5 [120] =
      { initEditor 24 80 with row := [⟨[97], [97]⟩, ⟨[98], [98]⟩] } ∧
    ((editorInsertRow
        { initEditor 24 80 with row := [⟨[97], [97]⟩, ⟨[98], [98]⟩] } 1 [120]).getRow 1).map
      erow.chars = some [120] :=
  ⟨(editorInsertRow_spec
      { initEditor 24 80 with row := [⟨[97], [97]⟩, ⟨[98], [98]⟩] } 5 [120]).1
      (Or.inr (by decide)),
   ((editorInsertRow_spec
      { initEditor 24 80 with row := [⟨[97], [97]⟩, ⟨[98], [98]⟩] } 1 [120]).2
      ⟨by decide, by decide⟩).2.1⟩

/-! ## Scrolling -/

theorem editorRowCxToRx_isSome (row : erow) (cx : Int) (h : cx ≤ row.size) :
    ∃ rx, editorRowCxToRx row cx = some rx := by
  have hlen : cx.toNat ≤ row.chars.length := by
    unfold erow.size at h
    omega
  obtain ⟨w, hw, _⟩ := cxLoop_rxLoop cx.toNat row.chars 0 0 hlen
  exact ⟨w, hw⟩

theorem editorScroll_clamp (E : editorConfig) :
    ∃ ro co, editorScroll.clamp E = { E with rowoff := ro, coloff := co } ∧
      (1 ≤ E.screenrows → ro ≤ E.cy ∧ E.cy < ro + E.screenrows) ∧
      (1 ≤ E.screencols → co ≤ E.rx ∧ E.rx < co + E.screencols) := by
  unfold editorScroll.clamp
  simp only []
  split_ifs with a1 a2 a3 a4 a5 a6 a7 a8 a9 a10 a11 a12 <;> simp only [] at * <;>
    exact ⟨_, _, rfl, by intro h; constructor <;> omega, by intro h; constructor <;> omega⟩

theorem editorScroll_clamp_viewport (E : editorConfig)
    (hr : 1 ≤ E.screenrows) (hc : 1 ≤ E.screencols) :
    (editorScroll.clamp E).cy = E.cy ∧ (editorScroll.clamp E).cx = E.cx ∧
    (editorScroll.clamp E).rx = E.rx ∧
    (editorScroll.clamp E).rowoff ≤ (editorScroll.clamp E).cy ∧
    (editorScroll.clamp E).cy <
      (editorScroll.clamp E).rowoff + (editorScroll.clamp E).screenrows ∧
    (editorScroll.clamp E).coloff ≤ (editorScroll.clamp E).rx ∧
    (editorScroll.clamp E).rx <
      (editorScroll.clamp E).coloff + (editorScroll.clamp E).screencols := by
  obtain ⟨ro, co, heq, h1, h2⟩ := editorScroll_clamp E
  rw [heq]
  have a := h1 hr
  have b := h2 hc
  exact ⟨rfl, rfl, rfl, a.1, a.2, b.1, b.2⟩

theorem editorScroll_some (E E' : editorConfig) (h : editorScroll E = some E') :
    ∃ rx, E' = editorScroll.clamp { E with rx := rx } := by
  unfold editorScroll at h
  simp only [] at h
  split at h
  · exact absurd h (by simp)
  · rename_i rx hrx
    exact ⟨rx, (Option.some.inj h).symm⟩

/-- Claim C7: for every state with `screenrows >= 1` and `screencols >= 1`,
whatever the cursor and the previous offsets, the state `editorScroll` leaves
has the cursor inside the viewport: `rowoff <= cy < rowoff + screenrows` and
`coloff <= rx < coloff + screencols`, with `rx` the render column that
`editorScroll` computed; the cursor itself is not moved.  The clamps establish
this for whatever value the computation of `rx` yields.  `editorScroll` has a
result whenever the cursor is behind the last line, or on a line at a column
`cx <= size`. -/
theorem editorScroll_cursor_in_viewport (E : editorConfig)
    (hr : 1 ≤ E.screenrows) (hc : 1 ≤ E.screencols) :
    (∀ rx : Int,
      (editorScroll.clamp { E with rx := rx }).cy = E.cy ∧
      (editorScroll.clamp { E with rx := rx }).rx = rx ∧
      (editorScroll.clamp { E with rx := rx }).rowoff ≤ E.cy ∧
      E.cy < (editorScroll.clamp { E with rx := rx }).rowoff +
        (editorScroll.clamp { E with rx := rx }).screenrows ∧
      (editorScroll.clamp { E with rx := rx }).coloff ≤ rx ∧
      rx < (editorScroll.clamp { E with rx := rx }).coloff +
        (editorScroll.clamp { E with rx := rx }).screencols) ∧
    (∀ E', editorScroll E = some E' →
      E'.cy = E.cy ∧ E'.cx = E.cx ∧
      E'.rowoff ≤ E'.cy ∧ E'.cy < E'.rowoff + E'.screenrows ∧
      E'.coloff ≤ E'.rx ∧ E'.rx < E'.coloff + E'.screencols) ∧
    ((E.numrows ≤ E.cy ∨ (0 ≤ E.cy ∧ E.cx ≤ lineSize E E.cy)) →
      ∃ E', editorScroll E = some E') := by
  refine ⟨?_, ?_, ?_⟩
  · intro rx
    obtain ⟨h1, _, h3, h4, h5, h6, h7⟩ := editorScroll_clamp_viewport { E with rx := rx } hr hc
    rw [h1] at h4 h5
    rw [h3] at h6 h7
    exact ⟨h1, h3, h4, h5, h6, h7⟩
  · intro E' h
    obtain ⟨rx, rfl⟩ := editorScroll_some E E' h
    obtain ⟨h1, h2, _, h4, h5, h6, h7⟩ := editorScroll_clamp_viewport { E with rx := rx } hr hc
    exact ⟨h1, h2, h4, h5, h6, h7⟩
  · intro hdef
    unfold editorScroll
    simp only []
    by_cases hcy : E.cy < E.numrows
    · rw [if_pos hcy]
      have h0 : 0 ≤ E.cy ∧ E.cx ≤ lineSize E E.cy := by
        rcases hdef with h | h
        · omega
        · exact h
      have hget : ∃ row, E.getRow E.cy = some row := by
        unfold editorConfig.getRow
        rw [if_pos h0.1]
        unfold editorConfig.numrows at hcy
        have : E.cy.toNat < E.row.length := by omega
        exact ⟨E.row[E.cy.toNat], List.getElem?_eq_getElem this⟩
      obtain ⟨row, hrow⟩ := hget
      have hsz : E.cx ≤ row.size := by
        have := h0.2
        unfold lineSize at this
        rw [hrow] at this
        exact this
      obtain ⟨rx, hrx⟩ := editorRowCxToRx_isSome row E.cx hsz
      rw [hrow]
      simp only [hrx]
      exact ⟨_, rfl⟩
    · rw [if_neg hcy]
      exact ⟨_, rfl⟩

/-- Claim C7 at a one-line buffer `"\tab"` with the cursor at column 3 (render
column 10) and a window of 2 rows and 4 columns scrolled far away: the offsets
become `rowoff = 0` and `coloff = 10`. -/
theorem editorScroll_cursor_in_viewport_witness :
    editorScroll
      { cx := 3, cy := 0, rx := 0, coloff := 50, rowoff := 7, screenrows := 2,
        screencols := 4, dirty := 0, row := [⟨[9, 97, 98], []⟩] } =
      some
        { cx := 3, cy := 0, rx := 10, coloff := 10, rowoff := 0, screenrows := 2,
          screencols := 4, dirty := 0, row := [⟨[9, 97, 98], []⟩] } ∧
    (0 : Int) ≤ 0 ∧ (0 : Int) < 0 + 2 ∧ (10 : Int) ≤ 10 ∧ (10 : Int) < 10 + 4 := by
  have hrun : editorScroll
      { cx := 3, cy := 0, rx := 0, coloff := 50, rowoff := 7, screenrows := 2,
        screencols := 4, dirty := 0, row := [⟨[9, 97, 98], []⟩] } =
      some
        { cx := 3, cy := 0, rx := 10, coloff := 10, rowoff := 0, screenrows := 2,
          screencols := 4, dirty := 0, row := [⟨[9, 97, 98], []⟩] } := by decide
  obtain ⟨_, _, h3, h4, h5, h6⟩ :=
    (editorScroll_cursor_in_viewport
      { cx := 3, cy := 0, rx := 0, coloff := 50, rowoff := 7, screenrows := 2,
        screencols := 4, dirty := 0, row := [⟨[9, 97, 98], []⟩] }
      (by decide) (by decide)).2.1 _ hrun
  exact ⟨hrun, h3, h4, h5, h6⟩

/-! ## Inserting and deleting a byte of a row -/

theorem eraseIdx_insert {α : Type} (l : List α) (x : α) (n : Nat) (hn : n ≤ l.length) :
    (l.take n ++ x :: l.drop n).eraseIdx n = l := by
  induction l generalizing n with
  | nil =>
    have : n = 0 := by simpa using hn
    subst this
    rfl
  | cons a l ih =>
    cases n with
    | zero => rfl
    | succ n =>
      have hn1 : n ≤ l.length := by simpa using hn
      simp only [List.take_succ_cons, List.drop_succ_cons, List.cons_append,
        List.eraseIdx_cons_succ, ih n hn1]

theorem editorRowInsertChar_eq (row : erow) (idx c dirty : Int)
    (h0 : 0 ≤ idx) (h1 : idx ≤ row.size) :
    editorRowInsertChar row idx c dirty =
      (editorUpdateRow { row with
          chars := row.chars.take idx.toNat ++ (c % 256).toNat :: row.chars.drop idx.toNat },
        dirty + 1) := by
  unfold editorRowInsertChar
  simp only []
  rw [if_neg (by omega)]

theorem editorRowInsertChar_size (row : erow) (idx c dirty : Int) :
    (editorRowInsertChar row idx c dirty).1.size = row.size + 1 := by
  unfold editorRowInsertChar editorUpdateRow erow.size
  simp only [List.length_append, List.length_take, List.length_cons, List.length_drop]
  split_ifs <;> omega

theorem editorRowDelChar_editorRowInsertChar_eq (row : erow) (idx c dirty : Int)
    (h0 : 0 ≤ idx) (h1 : idx ≤ row.size) :
    editorRowDelChar (editorRowInsertChar row idx c dirty).1 idx
        (editorRowInsertChar row idx c dirty).2 =
      some (editorUpdateRow row, dirty + 1 + 1) := by
  have hsz := editorRowInsertChar_size row idx c dirty
  unfold editorRowDelChar
  rw [if_neg (by omega), if_pos (by omega)]
  rw [editorRowInsertChar_eq row idx c dirty h0 h1]
  have hn : idx.toNat ≤ row.chars.length := by
    unfold erow.size at h1
    omega
  simp only [editorUpdateRow, eraseIdx_insert _ _ _ hn]

/-- Claim C4: for every line, every index `0 <= idx <= size` and every byte
`c`, `editorRowInsertChar(line, idx, c)` followed by `editorRowDelChar(line, idx)`
returns a line with the original `chars` and `size`; its `render` is the tab
expansion of these bytes, so `render` and `rsize` are the original ones for every
line of the data model, whose `render` is the expansion of its `chars`. -/
theorem editorRowDelChar_editorRowInsertChar (row : erow) (idx c dirty : Int)
    (h0 : 0 ≤ idx) (h1 : idx ≤ row.size) :
    ∃ row' dirty',
      editorRowDelChar (editorRowInsertChar row idx c dirty).1 idx
        (editorRowInsertChar row idx c dirty).2 = some (row', dirty') ∧
      row'.chars = row.chars ∧ row'.size = row.size ∧
      row'.render = (editorUpdateRow row).render ∧
      (rowConsistent row → row'.render = row.render ∧ row'.rsize = row.rsize) := by
  refine ⟨editorUpdateRow row, dirty + 1 + 1,
    editorRowDelChar_editorRowInsertChar_eq row idx c dirty h0 h1, rfl, rfl, rfl, ?_⟩
  intro hc
  unfold rowConsistent at hc
  rw [hc]
  exact ⟨rfl, rfl⟩

/-- Claim C4 at the line `"a\tb"`, inserting the byte `'x'` at index 1. -/
theorem editorRowDelChar_editorRowInsertChar_witness :
    rowConsistent ⟨[97, 9, 98], [97, 32, 32, 32, 32, 32, 32, 32, 98]⟩ ∧
    ∃ row' dirty',
      editorRowDelChar
        (editorRowInsertChar ⟨[97, 9, 98], [97, 32, 32, 32, 32, 32, 32, 32, 98]⟩ 1 120 0).1 1
        (editorRowInsertChar ⟨[97, 9, 98], [97, 32, 32, 32, 32, 32, 32, 32, 98]⟩ 1 120 0).2 =
          some (row', dirty') ∧
      row'.chars = [97, 9, 98] ∧ row'.size = 3 ∧
      row'.render = [97, 32, 32, 32, 32, 32, 32, 32, 98] ∧ row'.rsize = 9 := by
  have hc : rowConsistent ⟨[97, 9, 98], [97, 32, 32, 32, 32, 32, 32, 32, 98]⟩ := by decide
  obtain ⟨row', dirty', h, a, b, _, d⟩ :=
    editorRowDelChar_editorRowInsertChar
      ⟨[97, 9, 98], [97, 32, 32, 32, 32, 32, 32, 32, 98]⟩ 1 120 0 (by decide) (by decide)
  exact ⟨hc, row', dirty', h, a, b, (d hc).1, (d hc).2⟩


/-! ## Buffers split at a row -/

theorem split_get {α : Type} (A B : List α) (r : α) : (A ++ r :: B)[A.length]? = some r := by
  rw [List.getElem?_append_right (Nat.le_refl _)]
  simp

theorem split_get_succ {α : Type} (A B : List α) (r s : α) :
    (A ++ r :: s :: B)[A.length + 1]? = some s := by
  rw [List.getElem?_append_right (by omega)]
  simp

theorem split_drop_succ {α : Type} (A B : List α) (r : α) :
    (A ++ r :: B).drop (A.length + 1) = B := by
  have : A ++ r :: B = (A ++ [r]) ++ B := by simp
  rw [this]
  exact List.drop_left' (by simp)

theorem split_take_succ {α : Type} (A B : List α) (r : α) :
    (A ++ r :: B).take (A.length + 1) = A ++ [r] := by
  have : A ++ r :: B = (A ++ [r]) ++ B := by simp
  rw [this]
  exact List.take_left' (by simp)

theorem split_set {α : Type} (A B : List α) (r x : α) :
    (A ++ r :: B).set A.length x = A ++ x :: B := by
  simp

theorem split_eraseIdx {α : Type} (A B : List α) (r : α) :
    (A ++ r :: B).eraseIdx A.length = A ++ B := by
  rw [List.eraseIdx_append_of_length_le (Nat.le_refl _)]
  simp

theorem split_eraseIdx_succ {α : Type} (A B : List α) (r s : α) :
    (A ++ r :: s :: B).eraseIdx (A.length + 1) = A ++ r :: B := by
  rw [List.eraseIdx_append_of_length_le (by omega)]
  simp

theorem exists_split {α : Type} (l : List α) (n : Nat) (h : n < l.length) :
    ∃ A r B, l = A ++ r :: B ∧ A.length = n :=
  ⟨l.take n, l[n], l.drop (n + 1), by
    rw [← List.drop_eq_getElem_cons h, List.take_append_drop], by
    simp; omega⟩

theorem getRow_split (E : editorConfig) (A B : List erow) (r : erow)
    (h : E.row = A ++ r :: B) (i : Int) (hi : i = A.length) : E.getRow i = some r := by
  subst hi
  unfold editorConfig.getRow
  rw [if_pos (by omega), h]
  have : ((A.length : Int)).toNat = A.length := by omega
  rw [this]
  exact split_get A B r

theorem getRow_split_succ (E : editorConfig) (A B : List erow) (r s : erow)
    (h : E.row = A ++ r :: s :: B) (i : Int) (hi : i = A.length + 1) :
    E.getRow i = some s := by
  subst hi
  unfold editorConfig.getRow
  rw [if_pos (by omega), h]
  have : ((A.length : Int) + 1).toNat = A.length + 1 := by omega
  rw [this]
  exact split_get_succ A B r s


/-! ## The editor operations on a split buffer -/

theorem editorInsertRow_split (E : editorConfig) (A B : List erow) (s : List Nat)
    (h : E.row = A ++ B) (t : Int) (ht : t = A.length) :
    editorInsertRow E t s =
      { E with row := A ++ editorUpdateRow ⟨s, []⟩ :: B, dirty := E.dirty + 1 } := by
  subst ht
  have hn : (A.length : Int) ≤ E.numrows := by
    unfold editorConfig.numrows
    rw [h, List.length_append]
    omega
  rw [editorInsertRow_row E _ s (by omega) hn]
  have : ((A.length : Int)).toNat = A.length := by omega
  rw [this, h, List.take_left, List.drop_left]

theorem editorInsertNewLine_zero (E : editorConfig) (A B : List erow)
    (h : E.row = A ++ B) (hcy : E.cy = A.length) (hcx : E.cx = 0) :
    editorInsertNewLine E =
      some { E with row := A ++ editorUpdateRow ⟨[], []⟩ :: B, dirty := E.dirty + 1,
                    cy := E.cy + 1, cx := 0 } := by
  unfold editorInsertNewLine
  rw [if_pos hcx, editorInsertRow_split E A B [] h E.cy hcy]

theorem editorInsertNewLine_pos (E : editorConfig) (A B : List erow) (r : erow)
    (h : E.row = A ++ r :: B) (hcy : E.cy = A.length) (h0 : 0 < E.cx) (h1 : E.cx ≤ r.size) :
    editorInsertNewLine E =
      some { E with
        row := A ++ editorUpdateRow { r with chars := r.chars.take E.cx.toNat } ::
          editorUpdateRow ⟨r.chars.drop E.cx.toNat, []⟩ :: B,
        dirty := E.dirty + 1, cy := E.cy + 1, cx := 0 } := by
  unfold editorInsertNewLine
  rw [if_neg (by omega), getRow_split E A B r h E.cy hcy]
  simp only []
  rw [if_pos ⟨by omega, h1⟩]
  have h' : E.row = (A ++ [r]) ++ B := by simp [h]
  rw [editorInsertRow_split E (A ++ [r]) B _ h' (E.cy + 1) (by simp [hcy])]
  simp only []
  rw [getRow_split _ A (editorUpdateRow ⟨List.drop E.cx.toNat r.chars, []⟩ :: B) r
    (by simp) E.cy hcy]
  simp only [editorConfig.setRow]
  have : E.cy.toNat = A.length := by omega
  rw [this]
  have h2 : A ++ [r] ++ editorUpdateRow ⟨List.drop E.cx.toNat r.chars, []⟩ :: B =
      A ++ r :: editorUpdateRow ⟨List.drop E.cx.toNat r.chars, []⟩ :: B := by simp
  rw [h2, split_set]

theorem editorDelChar_merge (E : editorConfig) (A B : List erow) (p r : erow)
    (h : E.row = A ++ p :: r :: B) (hcy : E.cy = A.length + 1) (hcx : E.cx = 0) :
    editorDelChar E =
      some { E with
        row := A ++ editorUpdateRow { p with chars := p.chars ++ r.chars } :: B,
        dirty := E.dirty + 1 + 1, cx := p.size, cy := E.cy - 1 } := by
  have hn : E.numrows = A.length + 1 + 1 + B.length := by
    unfold editorConfig.numrows
    rw [h]
    simp
    omega
  unfold editorDelChar
  rw [if_neg (by omega), if_neg (by omega), if_neg (by omega)]
  rw [getRow_split E A _ p h (E.cy - 1) (by omega), getRow_split_succ E A B p r h E.cy hcy]
  simp only [editorRowAppendString, editorConfig.setRow]
  have : (E.cy - 1).toNat = A.length := by omega
  rw [this, h, split_set]
  unfold editorDelRow
  simp only [editorConfig.numrows, List.length_append, List.length_cons]
  rw [if_neg (by push_cast; omega), if_pos (by push_cast; omega)]
  simp only []
  have : E.cy.toNat = A.length + 1 := by omega
  rw [this, split_eraseIdx_succ]

theorem editorDelChar_char (E : editorConfig) (A B : List erow) (r : erow)
    (h : E.row = A ++ r :: B) (hcy : E.cy = A.length) (h0 : 0 < E.cx) (h1 : E.cx ≤ r.size) :
    editorDelChar E =
      some { E with
        row := A ++ editorUpdateRow { r with chars := r.chars.eraseIdx (E.cx - 1).toNat } :: B,
        dirty := E.dirty + 1, cx := E.cx - 1 } := by
  have hn : E.numrows = A.length + 1 + B.length := by
    unfold editorConfig.numrows
    rw [h]
    simp
    omega
  unfold editorDelChar
  rw [if_neg (by omega), if_neg (by omega), if_pos (by omega)]
  rw [getRow_split E A B r h E.cy hcy]
  simp only [editorRowDelChar]
  rw [if_neg (by omega), if_pos (by omega)]
  simp only [editorConfig.setRow]
  have : E.cy.toNat = A.length := by omega
  rw [this, h, split_set]

theorem editorInsertChar_split (E : editorConfig) (A B : List erow) (r : erow) (c : Int)
    (h : E.row = A ++ r :: B) (hcy : E.cy = A.length) :
    editorInsertChar E c =
      some { E with
        row := A ++ (editorRowInsertChar r E.cx c E.dirty).1 :: B,
        dirty := E.dirty + 1, cx := E.cx + 1 } := by
  have hn : E.numrows = A.length + 1 + B.length := by
    unfold editorConfig.numrows
    rw [h]
    simp
    omega
  unfold editorInsertChar
  simp only []
  rw [if_neg (by omega), getRow_split E A B r h E.cy hcy]
  simp only [editorConfig.setRow]
  have : E.cy.toNat = A.length := by omega
  rw [this, h, split_set]
  rfl

theorem editorInsertChar_end (E : editorConfig) (c : Int) (hcy : E.cy = E.numrows) :
    editorInsertChar E c =
      some { E with
        row := E.row ++ [(editorRowInsertChar (editorUpdateRow ⟨[], []⟩) E.cx c E.dirty).1],
        dirty := E.dirty + 1 + 1, cx := E.cx + 1 } := by
  unfold editorInsertChar
  simp only []
  rw [if_pos hcy, editorInsertRow_split E E.row [] [] (by simp) E.numrows rfl]
  rw [getRow_split _ E.row [] (editorUpdateRow ⟨[], []⟩) rfl _ hcy]
  simp only [editorConfig.setRow]
  have : E.cy.toNat = E.row.length := by
    unfold editorConfig.numrows at hcy
    omega
  rw [this, split_set]
  rfl


/-! ## Split and merge -/

theorem editorUpdateRow_chars (row : erow) : (editorUpdateRow row).chars = row.chars := rfl

theorem editorUpdateRow_congr (r s : erow) (h : r.chars = s.chars) :
    editorUpdateRow r = editorUpdateRow s := by
  unfold editorUpdateRow
  rw [h]

theorem editorDelChar_editorInsertNewLine_split (E : editorConfig) (A B : List erow) (r : erow)
    (h : E.row = A ++ r :: B) (hcy : E.cy = A.length) (h0 : 0 ≤ E.cx) (h1 : E.cx ≤ r.size) :
    ∃ E1, editorInsertNewLine E = some E1 ∧
      editorDelChar E1 =
        some { E with row := A ++ editorUpdateRow r :: B, dirty := E.dirty + 1 + 1 + 1 } := by
  by_cases hcx : E.cx = 0
  · refine ⟨_, editorInsertNewLine_zero E A (r :: B) h hcy hcx, ?_⟩
    rw [editorDelChar_merge _ A B (editorUpdateRow ⟨[], []⟩) r rfl (by simp [hcy]) rfl]
    have e1 : editorUpdateRow
        { editorUpdateRow ⟨[], []⟩ with chars := (editorUpdateRow ⟨[], []⟩).chars ++ r.chars } =
        editorUpdateRow r := editorUpdateRow_congr _ _ (by simp [editorUpdateRow])
    rw [e1]
    simp only [Option.some.injEq, editorConfig.mk.injEq, and_true, true_and]
    refine ⟨?_, by omega⟩
    rw [hcx]
    rfl
  · have hpos : 0 < E.cx := by omega
    refine ⟨_, editorInsertNewLine_pos E A B r h hcy hpos h1, ?_⟩
    rw [editorDelChar_merge _ A B _ _ rfl (by simp [hcy]) rfl]
    have e1 : editorUpdateRow
        { editorUpdateRow { r with chars := r.chars.take E.cx.toNat } with
          chars := (editorUpdateRow { r with chars := r.chars.take E.cx.toNat }).chars ++
            (editorUpdateRow ⟨r.chars.drop E.cx.toNat, []⟩).chars } =
        editorUpdateRow r := editorUpdateRow_congr _ _ (by simp [editorUpdateRow])
    rw [e1]
    simp only [Option.some.injEq, editorConfig.mk.injEq, and_true, true_and]
    refine ⟨?_, by omega⟩
    simp only [editorUpdateRow, erow.size, List.length_take]
    unfold erow.size at h1
    omega

theorem getRow_exists_split (E : editorConfig) (i : Int) (h0 : 0 ≤ i) (h1 : i < E.numrows) :
    ∃ A r B, E.row = A ++ r :: B ∧ i = A.length ∧ E.getRow i = some r := by
  have hlt : i.toNat < E.row.length := by
    unfold editorConfig.numrows at h1
    omega
  obtain ⟨A, r, B, h, hA⟩ := exists_split E.row i.toNat hlt
  have hi : i = A.length := by omega
  exact ⟨A, r, B, h, hi, getRow_split E A B r h i hi⟩

/-- Claim C3: for every state whose cursor is on an existing line
(`0 <= cy < numrows`) at a column `0 <= cx <= size`, `editorInsertNewLine`
followed by `editorDelChar` gives a buffer with the same number of lines and the
same `chars`/`size` in every line; every line but line `cy` is untouched, and
line `cy` carries the tab expansion of its bytes as `render`/`rsize`, which is
its former `render`/`rsize` for a line of the data model (one whose `render` is
the expansion of its `chars`).  The cursor is back where it was. -/
theorem editorDelChar_editorInsertNewLine (E : editorConfig)
    (hcy0 : 0 ≤ E.cy) (hcy1 : E.cy < E.numrows)
    (hcx0 : 0 ≤ E.cx) (hcx1 : E.cx ≤ lineSize E E.cy) :
    ∃ E1 E2 row, editorInsertNewLine E = some E1 ∧ editorDelChar E1 = some E2 ∧
      E.getRow E.cy = some row ∧
      E2.numrows = E.numrows ∧
      contents E2 = contents E ∧
      E2.row = E.row.set E.cy.toNat (editorUpdateRow row) ∧
      (rowConsistent row → E2.row = E.row) ∧
      E2.cx = E.cx ∧ E2.cy = E.cy := by
  obtain ⟨A, r, B, h, hA, hget⟩ := getRow_exists_split E E.cy hcy0 hcy1
  have hsz : E.cx ≤ r.size := by
    unfold lineSize at hcx1
    rw [hget] at hcx1
    exact hcx1
  obtain ⟨E1, hE1, hE2⟩ := editorDelChar_editorInsertNewLine_split E A B r h hA hcx0 hsz
  have hn : E.cy.toNat = A.length := by omega
  refine ⟨E1, _, r, hE1, hE2, hget, ?_, ?_, ?_, ?_, rfl, rfl⟩
  · simp [editorConfig.numrows, h]
  · simp [contents, h, editorUpdateRow]
  · simp only []
    rw [hn, h, split_set]
  · intro hc
    unfold rowConsistent at hc
    simp only []
    rw [hc, h]


/-- Claim C3 at the document `["abc", "de"]` with the cursor on line 0,
column 2. -/
theorem editorDelChar_editorInsertNewLine_witness :
    ∃ E1 E2 row, editorInsertNewLine { docOf [[97, 98, 99], [100, 101]] with cx := 2 } = some E1 ∧
      editorDelChar E1 = some E2 ∧
      ({ docOf [[97, 98, 99], [100, 101]] with cx := 2 } : editorConfig).getRow 0 = some row ∧
      E2.numrows = 2 ∧
      contents E2 = [[97, 98, 99], [100, 101]] ∧
      E2.row = (docOf [[97, 98, 99], [100, 101]]).row ∧
      E2.cx = 2 ∧ E2.cy = 0 := by
  obtain ⟨E1, E2, row, h1, h2, h3, h4, h5, _, h7, h8, h9⟩ :=
    editorDelChar_editorInsertNewLine { docOf [[97, 98, 99], [100, 101]] with cx := 2 }
      (by decide) (by decide) (by decide) (by decide)
  have hrow : row = ⟨[97, 98, 99], [97, 98, 99]⟩ := by
    have : ({ docOf [[97, 98, 99], [100, 101]] with cx := 2 } : editorConfig).getRow 0 =
        some ⟨[97, 98, 99], [97, 98, 99]⟩ := by decide
    exact Option.some.inj (h3.symm.trans this)
  exact ⟨E1, E2, row, h1, h2, h3, h4, h5, h7 (by rw [hrow]; decide), h8, h9⟩


/-! ## Render consistency -/

theorem rowConsistent_editorUpdateRow (row : erow) : rowConsistent (editorUpdateRow row) := rfl

theorem allConsistent_setRow (E : editorConfig) (i : Int) (r : erow)
    (h : allConsistent E) (hr : rowConsistent r) : allConsistent (E.setRow i r) := by
  intro x hx
  rcases List.mem_or_eq_of_mem_set hx with hx | hx
  · exact h x hx
  · rw [hx]; exact hr

theorem allConsistent_editorInsertRow (E : editorConfig) (t : Int) (s : List Nat)
    (h : allConsistent E) : allConsistent (editorInsertRow E t s) := by
  unfold editorInsertRow
  split
  · exact h
  · intro x hx
    simp only [List.mem_append, List.mem_cons] at hx
    rcases hx with hx | hx | hx
    · exact h x (List.mem_of_mem_take hx)
    · rw [hx]; exact rowConsistent_editorUpdateRow _
    · exact h x (List.mem_of_mem_drop hx)

theorem rowConsistent_editorRowDelChar (row : erow) (t dirty : Int) (p : erow × Int)
    (h : rowConsistent row) (hp : editorRowDelChar row t dirty = some p) :
    rowConsistent p.1 := by
  unfold editorRowDelChar at hp
  split_ifs at hp <;> cases hp <;> first | exact h | exact rowConsistent_editorUpdateRow _

theorem allConsistent_editorDelRow (E E' : editorConfig) (t : Int)
    (h : allConsistent E) (hE : editorDelRow E t = some E') : allConsistent E' := by
  unfold editorDelRow at hE
  split_ifs at hE
  · cases hE; exact h
  · cases hE
    intro x hx
    exact h x (List.mem_of_mem_eraseIdx hx)

theorem exists_take_drop (E : editorConfig) (i : Int) (h0 : 0 ≤ i) (h1 : i ≤ E.numrows) :
    ∃ A B, E.row = A ++ B ∧ i = A.length := by
  refine ⟨E.row.take i.toNat, E.row.drop i.toNat, (List.take_append_drop _ _).symm, ?_⟩
  unfold editorConfig.numrows at h1
  rw [List.length_take]
  omega

theorem allConsistent_of_row (E E' : editorConfig) (h : allConsistent E)
    (hsub : ∀ x ∈ E'.row, x ∈ E.row ∨ rowConsistent x) : allConsistent E' := by
  intro x hx
  rcases hsub x hx with h1 | h1
  · exact h x h1
  · exact h1

theorem editorInsertChar_consistent (E : editorConfig) (c : Int) (hinv : allConsistent E)
    (hcy0 : 0 ≤ E.cy) (hcy : E.cy ≤ E.numrows) :
    ∃ E', editorInsertChar E c = some E' ∧ allConsistent E' := by
  by_cases hend : E.cy = E.numrows
  · refine ⟨_, editorInsertChar_end E c hend, ?_⟩
    apply allConsistent_of_row E _ hinv
    intro x hx
    simp only [List.mem_append, List.mem_singleton] at hx
    rcases hx with hx | hx
    · exact Or.inl hx
    · right; rw [hx]; exact rowConsistent_editorUpdateRow _
  · obtain ⟨A, r, B, h, hA, _⟩ := getRow_exists_split E E.cy hcy0 (by omega)
    refine ⟨_, editorInsertChar_split E A B r c h hA, ?_⟩
    apply allConsistent_of_row E _ hinv
    intro x hx
    simp only [List.mem_append, List.mem_cons] at hx
    rw [h]
    rcases hx with hx | hx | hx
    · left; simp [hx]
    · right; rw [hx]; exact rowConsistent_editorUpdateRow _
    · left; simp [hx]

theorem editorInsertNewLine_consistent (E : editorConfig) (hinv : allConsistent E)
    (hcy0 : 0 ≤ E.cy) (hcy : E.cy ≤ E.numrows)
    (hcx : E.cy < E.numrows → 0 ≤ E.cx ∧ E.cx ≤ lineSize E E.cy) :
    (∀ E', editorInsertNewLine E = some E' → allConsistent E') ∧
    ((E.cy < E.numrows ∨ E.cx = 0) → ∃ E', editorInsertNewLine E = some E') := by
  by_cases hz : E.cx = 0
  · obtain ⟨A, B, h, hA⟩ := exists_take_drop E E.cy hcy0 hcy
    have hres := editorInsertNewLine_zero E A B h hA hz
    refine ⟨?_, fun _ => ⟨_, hres⟩⟩
    intro E' hE'
    rw [hres] at hE'
    cases hE'
    apply allConsistent_of_row E _ hinv
    intro x hx
    simp only [List.mem_append, List.mem_cons] at hx
    rw [h]
    rcases hx with hx | hx | hx
    · left; simp [hx]
    · right; rw [hx]; exact rowConsistent_editorUpdateRow _
    · left; simp [hx]
  · by_cases hlt : E.cy < E.numrows
    · obtain ⟨A, r, B, h, hA, hget⟩ := getRow_exists_split E E.cy hcy0 hlt
      have hsz := (hcx hlt).2
      unfold lineSize at hsz
      rw [hget] at hsz
      have hres := editorInsertNewLine_pos E A B r h hA (by have := (hcx hlt).1; omega) hsz
      refine ⟨?_, fun _ => ⟨_, hres⟩⟩
      intro E' hE'
      rw [hres] at hE'
      cases hE'
      apply allConsistent_of_row E _ hinv
      intro x hx
      simp only [List.mem_append, List.mem_cons] at hx
      rw [h]
      rcases hx with hx | hx | hx | hx
      · left; simp [hx]
      · right; rw [hx]; exact rowConsistent_editorUpdateRow _
      · right; rw [hx]; exact rowConsistent_editorUpdateRow _
      · left; simp [hx]
    · have hnone : editorInsertNewLine E = none := by
        unfold editorInsertNewLine
        rw [if_neg hz]
        have : E.getRow E.cy = none := by
          unfold editorConfig.getRow
          rw [if_pos hcy0]
          unfold editorConfig.numrows at hlt
          exact List.getElem?_eq_none (by omega)
        rw [this]
      refine ⟨?_, ?_⟩
      · intro E' hE'
        rw [hnone] at hE'
        exact absurd hE' (by simp)
      · intro h
        rcases h with h | h
        · exact absurd h hlt
        · exact absurd h hz

theorem editorDelChar_consistent (E : editorConfig) (hinv : allConsistent E)
    (hcy0 : 0 ≤ E.cy) (hcy : E.cy ≤ E.numrows)
    (hcx : E.cy < E.numrows → 0 ≤ E.cx ∧ E.cx ≤ lineSize E E.cy) :
    ∃ E', editorDelChar E = some E' ∧ allConsistent E' := by
  by_cases hend : E.cy = E.numrows
  · exact ⟨E, by unfold editorDelChar; rw [if_pos hend], hinv⟩
  by_cases horigin : E.cx = 0 ∧ E.cy = 0
  · exact ⟨E, by unfold editorDelChar; rw [if_neg hend, if_pos horigin], hinv⟩
  have hlt : E.cy < E.numrows := by omega
  obtain ⟨hcx0, hsz⟩ := hcx hlt
  by_cases hpos : 0 < E.cx
  · obtain ⟨A, r, B, h, hA, hget⟩ := getRow_exists_split E E.cy hcy0 hlt
    unfold lineSize at hsz
    rw [hget] at hsz
    refine ⟨_, editorDelChar_char E A B r h hA hpos hsz, ?_⟩
    apply allConsistent_of_row E _ hinv
    intro x hx
    simp only [List.mem_append, List.mem_cons] at hx
    rw [h]
    rcases hx with hx | hx | hx
    · left; simp [hx]
    · right; rw [hx]; exact rowConsistent_editorUpdateRow _
    · left; simp [hx]
  · have hcx : E.cx = 0 := by omega
    have hcy1 : 1 ≤ E.cy := by
      by_contra hc
      exact horigin ⟨hcx, by omega⟩
    obtain ⟨A, p, B', h, hA, _⟩ := getRow_exists_split E (E.cy - 1) (by omega) (by omega)
    have hB : B' ≠ [] := by
      intro hB
      unfold editorConfig.numrows at hlt
      rw [h, hB] at hlt
      simp at hlt
      omega
    obtain ⟨r, B, rfl⟩ := List.exists_cons_of_ne_nil hB
    refine ⟨_, editorDelChar_merge E A B p r h (by omega) hcx, ?_⟩
    apply allConsistent_of_row E _ hinv
    intro x hx
    simp only [List.mem_append, List.mem_cons] at hx
    rw [h]
    rcases hx with hx | hx | hx
    · left; simp [hx]
    · right; rw [hx]; exact rowConsistent_editorUpdateRow _
    · left; simp [hx]


/-- Claim C5: render consistency is an invariant of the editing operations.  In
a state in which every line has `render`/`rsize` equal to the tab expansion of
its `chars`/`size` and the cursor is on a valid position (`0 <= cy <= numrows`,
and `0 <= cx <= size` of line `cy` when `cy < numrows`), every line again has
this property after `editorInsertRow`, `editorRowInsertChar`, `editorRowDelChar`,
`editorRowAppendString` (each on any line of the buffer), `editorDelRow`,
`editorInsertChar`, `editorInsertNewLine` and `editorDelChar`.  The operations
that can address memory outside the buffer have a result on the arguments named
here. -/
theorem render_consistency_invariant (E : editorConfig) (hinv : allConsistent E)
    (hcy0 : 0 ≤ E.cy) (hcy : E.cy ≤ E.numrows)
    (hcx : E.cy < E.numrows → 0 ≤ E.cx ∧ E.cx ≤ lineSize E E.cy) :
    (∀ t s, allConsistent (editorInsertRow E t s)) ∧
    (∀ i row idx c, E.getRow i = some row →
      allConsistent (E.setRow i (editorRowInsertChar row idx c E.dirty).1)) ∧
    (∀ i row t, E.getRow i = some row →
      (∀ p, editorRowDelChar row t E.dirty = some p → allConsistent (E.setRow i p.1)) ∧
      ((0 ≤ t ∧ t < row.size) → ∃ p, editorRowDelChar row t E.dirty = some p)) ∧
    (∀ i row s, E.getRow i = some row →
      allConsistent (E.setRow i (editorRowAppendString row s E.dirty).1)) ∧
    (∀ t, (∀ E', editorDelRow E t = some E' → allConsistent E') ∧
      (t ≤ E.numrows → ∃ E', editorDelRow E t = some E')) ∧
    (∀ c, ∃ E', editorInsertChar E c = some E' ∧ allConsistent E') ∧
    ((∀ E', editorInsertNewLine E = some E' → allConsistent E') ∧
      ((E.cy < E.numrows ∨ E.cx = 0) → ∃ E', editorInsertNewLine E = some E')) ∧
    (∃ E', editorDelChar E = some E' ∧ allConsistent E') := by
  refine ⟨?_, ?_, ?_, ?_, ?_, ?_, ?_, ?_⟩
  · intro t s
    exact allConsistent_editorInsertRow E t s hinv
  · intro i row idx c _
    exact allConsistent_setRow E i _ hinv (rowConsistent_editorUpdateRow _)
  · intro i row t hrow
    have hmem : row ∈ E.row := by
      unfold editorConfig.getRow at hrow
      split_ifs at hrow
      exact List.getElem?_mem hrow
    refine ⟨?_, ?_⟩
    · intro p hp
      exact allConsistent_setRow E i _ hinv
        (rowConsistent_editorRowDelChar row t E.dirty p (hinv row hmem) hp)
    · intro ht
      unfold editorRowDelChar
      rw [if_neg (by omega), if_pos ht]
      exact ⟨_, rfl⟩
  · intro i row s _
    exact allConsistent_setRow E i _ hinv (rowConsistent_editorUpdateRow _)
  · intro t
    refine ⟨fun E' hE' => allConsistent_editorDelRow E E' t hinv hE', ?_⟩
    intro ht
    unfold editorDelRow
    split_ifs
    · exact ⟨_, rfl⟩
    · exact ⟨_, rfl⟩
    · omega
  · intro c
    exact editorInsertChar_consistent E c hinv hcy0 hcy
  · exact editorInsertNewLine_consistent E hinv hcy0 hcy hcx
  · exact editorDelChar_consistent E hinv hcy0 hcy hcx

/-- Claim C5 at the document `["a\t", "b"]` with the cursor at the start of
line 1, where `editorDelChar` merges the two lines. -/
theorem render_consistency_invariant_witness :
    allConsistent { docOf [[97, 9], [98]] with cy := 1 } ∧
    ∃ E', editorDelChar { docOf [[97, 9], [98]] with cy := 1 } = some E' ∧ allConsistent E' :=
  ⟨by decide,
   (render_consistency_invariant { docOf [[97, 9], [98]] with cy := 1 }
      (by decide) (by decide) (by decide) (by decide)).2.2.2.2.2.2.2⟩



/-! ## The dirty counter -/

theorem contents_ne_of_length (E E' : editorConfig) (h : E'.row.length ≠ E.row.length) :
    contents E' ≠ contents E := by
  intro hc
  have := congrArg List.length hc
  simp only [contents, List.length_map] at this
  exact h this

theorem contents_ne_of_row (A B : List erow) (r r' : erow) (E E' : editorConfig)
    (hE : E.row = A ++ r :: B) (hE' : E'.row = A ++ r' :: B)
    (h : r'.chars.length ≠ r.chars.length) : contents E' ≠ contents E := by
  intro hc
  simp only [contents, hE, hE', List.map_append, List.map_cons] at hc
  have h1 := List.append_cancel_left hc
  have h2 := (List.cons.inj h1).1
  exact h (congrArg List.length h2)

theorem editorFind_loop_frame (q : List Nat) (E : editorConfig) :
    ∀ (rows : List erow) (i : Int),
      (editorFind.loop q E rows i).dirty = E.dirty ∧ (editorFind.loop q E rows i).row = E.row := by
  intro rows
  induction rows with
  | nil => intro i; exact ⟨rfl, rfl⟩
  | cons row rest ih =>
    intro i
    unfold editorFind.loop
    split
    · exact ⟨rfl, rfl⟩
    · exact ih (i + 1)

theorem editorFind_frame (E : editorConfig) (q : Option (List Nat)) :
    (editorFind E q).dirty = E.dirty ∧ (editorFind E q).row = E.row := by
  cases q with
  | none => exact ⟨rfl, rfl⟩
  | some q => exact editorFind_loop_frame q E E.row 0

theorem editorMoveCursor_frame (E : editorConfig) (key : Int) :
    (editorMoveCursor E key).dirty = E.dirty ∧ (editorMoveCursor E key).row = E.row := by
  unfold editorMoveCursor
  split_ifs <;> exact ⟨rfl, rfl⟩

theorem editorInsertChar_dirty (E : editorConfig) (c : Int) (hd : E.dirty = 0)
    (hcy0 : 0 ≤ E.cy) (hcy : E.cy ≤ E.numrows) :
    ∃ E', editorInsertChar E c = some E' ∧ E'.dirty ≠ 0 ∧ contents E' ≠ contents E := by
  by_cases hend : E.cy = E.numrows
  · refine ⟨_, editorInsertChar_end E c hend, ?_, ?_⟩
    · simp only [hd]; decide
    · exact contents_ne_of_length _ _ (by simp)
  · obtain ⟨A, r, B, h, hA, _⟩ := getRow_exists_split E E.cy hcy0 (by omega)
    refine ⟨_, editorInsertChar_split E A B r c h hA, ?_, ?_⟩
    · simp only [hd]; decide
    · refine contents_ne_of_row A B r _ E _ h rfl ?_
      have := editorRowInsertChar_size r E.cx c E.dirty
      unfold erow.size at this
      omega

theorem editorInsertNewLine_dirty (E : editorConfig) (hd : E.dirty = 0)
    (hcy0 : 0 ≤ E.cy) (hcy : E.cy ≤ E.numrows) (hcx0 : 0 ≤ E.cx) (hcx : E.cx ≤ lineSize E E.cy) :
    ∃ E', editorInsertNewLine E = some E' ∧ E'.dirty ≠ 0 ∧ contents E' ≠ contents E := by
  by_cases hz : E.cx = 0
  · obtain ⟨A, B, h, hA⟩ := exists_take_drop E E.cy hcy0 hcy
    refine ⟨_, editorInsertNewLine_zero E A B h hA hz, ?_, ?_⟩
    · simp only [hd]; decide
    · exact contents_ne_of_length _ _ (by simp [h])
  · have hlt : E.cy < E.numrows := by
      by_contra hge
      have hnone : E.getRow E.cy = none := by
        unfold editorConfig.getRow
        rw [if_pos hcy0]
        unfold editorConfig.numrows at hge
        exact List.getElem?_eq_none (by omega)
      unfold lineSize at hcx
      rw [hnone] at hcx
      simp only [] at hcx
      omega
    obtain ⟨A, r, B, h, hA, hget⟩ := getRow_exists_split E E.cy hcy0 hlt
    unfold lineSize at hcx
    rw [hget] at hcx
    refine ⟨_, editorInsertNewLine_pos E A B r h hA (by omega) hcx, ?_, ?_⟩
    · simp only [hd]; decide
    · exact contents_ne_of_length _ _ (by simp [h])

theorem editorDelChar_dirty (E : editorConfig) (hd : E.dirty = 0)
    (hcy0 : 0 ≤ E.cy) (hcy : E.cy ≤ E.numrows) (hcx0 : 0 ≤ E.cx) (hcx : E.cx ≤ lineSize E E.cy) :
    ∃ E', editorDelChar E = some E' ∧
      ((E.cy = E.numrows ∨ (E.cx = 0 ∧ E.cy = 0)) → E' = E) ∧
      (¬ (E.cy = E.numrows ∨ (E.cx = 0 ∧ E.cy = 0)) →
        E'.dirty ≠ 0 ∧ contents E' ≠ contents E) := by
  by_cases hend : E.cy = E.numrows
  · exact ⟨E, by unfold editorDelChar; rw [if_pos hend], fun _ => rfl,
      fun h => absurd (Or.inl hend) h⟩
  by_cases horigin : E.cx = 0 ∧ E.cy = 0
  · exact ⟨E, by unfold editorDelChar; rw [if_neg hend, if_pos horigin], fun _ => rfl,
      fun h => absurd (Or.inr horigin) h⟩
  have hlt : E.cy < E.numrows := by omega
  have hno : ¬ (E.cy = E.numrows ∨ (E.cx = 0 ∧ E.cy = 0)) := by
    rintro (h | h)
    · exact hend h
    · exact horigin h
  by_cases hpos : 0 < E.cx
  · obtain ⟨A, r, B, h, hA, hget⟩ := getRow_exists_split E E.cy hcy0 hlt
    unfold lineSize at hcx
    rw [hget] at hcx
    have hsz : E.cx ≤ r.size := hcx
    refine ⟨_, editorDelChar_char E A B r h hA hpos hsz, fun h => absurd h hno, fun _ => ⟨?_, ?_⟩⟩
    · simp only [hd]; decide
    · refine contents_ne_of_row A B r _ E _ h rfl ?_
      simp only [editorUpdateRow]
      unfold erow.size at hsz
      rw [List.length_eraseIdx]
      split <;> omega
  · have hcx : E.cx = 0 := by omega
    have hcy1 : 1 ≤ E.cy := by
      by_contra hc
      exact horigin ⟨hcx, by omega⟩
    obtain ⟨A, p, B', h, hA, _⟩ := getRow_exists_split E (E.cy - 1) (by omega) (by omega)
    have hB : B' ≠ [] := by
      intro hB
      unfold editorConfig.numrows at hlt
      rw [h, hB] at hlt
      simp at hlt
      omega
    obtain ⟨r, B, rfl⟩ := List.exists_cons_of_ne_nil hB
    refine ⟨_, editorDelChar_merge E A B p r h (by omega) hcx, fun h => absurd h hno,
      fun _ => ⟨?_, ?_⟩⟩
    · simp only [hd]; decide
    · exact contents_ne_of_length _ _ (by simp [h])

/-- Claim C8: the dirty counter tracks mutation.  From a state with
`dirty = 0` and a valid cursor (`0 <= cy <= numrows`, `0 <= cx <= size` of line
`cy`, the size behind the last line being 0), one command leaves `dirty`
non-zero exactly when the sequence of line contents has changed:
`editorInsertChar` and `editorInsertNewLine` change the contents and make `dirty`
non-zero; `editorDelChar` changes nothing at all when it is a no-op (cursor
behind the last line or at line 0, column 0) and otherwise changes the contents
and makes `dirty` non-zero; `editorMoveCursor` (any key) and `editorFind` (any
prompt result) leave the contents alone and `dirty` at 0. -/
theorem dirty_tracks_mutation (E : editorConfig) (hd : E.dirty = 0)
    (hcy0 : 0 ≤ E.cy) (hcy : E.cy ≤ E.numrows) (hcx0 : 0 ≤ E.cx) (hcx : E.cx ≤ lineSize E E.cy) :
    (∀ c, ∃ E', editorInsertChar E c = some E' ∧ E'.dirty ≠ 0 ∧ contents E' ≠ contents E) ∧
    (∃ E', editorInsertNewLine E = some E' ∧ E'.dirty ≠ 0 ∧ contents E' ≠ contents E) ∧
    (∃ E', editorDelChar E = some E' ∧
      (E'.dirty ≠ 0 ↔ contents E' ≠ contents E) ∧
      ((E.cy = E.numrows ∨ (E.cx = 0 ∧ E.cy = 0)) → E' = E) ∧
      (¬ (E.cy = E.numrows ∨ (E.cx = 0 ∧ E.cy = 0)) →
        E'.dirty ≠ 0 ∧ contents E' ≠ contents E)) ∧
    (∀ key, (editorMoveCursor E key).dirty = 0 ∧
      contents (editorMoveCursor E key) = contents E) ∧
    (∀ query, (editorFind E query).dirty = 0 ∧
      contents (editorFind E query) = contents E) := by
  refine ⟨fun c => editorInsertChar_dirty E c hd hcy0 hcy,
    editorInsertNewLine_dirty E hd hcy0 hcy hcx0 hcx, ?_, ?_, ?_⟩
  · obtain ⟨E', hE', hnoop, heff⟩ := editorDelChar_dirty E hd hcy0 hcy hcx0 hcx
    refine ⟨E', hE', ?_, hnoop, heff⟩
    by_cases h : E.cy = E.numrows ∨ (E.cx = 0 ∧ E.cy = 0)
    · rw [hnoop h]
      constructor
      · intro h1; exact absurd hd h1
      · intro h1; exact absurd rfl h1
    · exact ⟨fun _ => (heff h).2, fun _ => (heff h).1⟩
  · intro key
    obtain ⟨h1, h2⟩ := editorMoveCursor_frame E key
    exact ⟨h1.trans hd, by unfold contents; rw [h2]⟩
  · intro query
    obtain ⟨h1, h2⟩ := editorFind_frame E query
    exact ⟨h1.trans hd, by unfold contents; rw [h2]⟩

/-- Claim C8 at the document `["ab", "xcdy"]` with the cursor on line 1,
column 2: deleting the byte before the cursor makes `dirty` non-zero. -/
theorem dirty_tracks_mutation_witness :
    ∃ E', editorDelChar { docOf [[97, 98], [120, 99, 100, 121]] with cx := 2, cy := 1 } = some E' ∧
      (E'.dirty ≠ 0 ↔
        contents E' ≠ contents { docOf [[97, 98], [120, 99, 100, 121]] with cx := 2, cy := 1 }) ∧
      E'.dirty ≠ 0 := by
  obtain ⟨E', h1, h2, _, h4⟩ :=
    (dirty_tracks_mutation { docOf [[97, 98], [120, 99, 100, 121]] with cx := 2, cy := 1 }
      (by decide) (by decide) (by decide) (by decide) (by decide)).2.2.1
  exact ⟨E', h1, h2, (h4 (by decide)).1⟩


/-! ## Loading and saving -/

theorem stripLineEnd_line (line : List Nat) (h : ∀ c ∈ line, c ≠ NL ∧ c ≠ CR) :
    stripLineEnd (line ++ [NL]) = line := by
  unfold stripLineEnd
  rw [List.rdropWhile_concat_pos _ _ _ (by simp)]
  rw [List.rdropWhile_eq_self_iff]
  intro hne
  have := h _ (List.getLast_mem hne)
  simp [this.1, this.2]

theorem getlines_flat : ∀ (cs line : List Nat),
    (∀ c ∈ line, c ≠ NL ∧ c ≠ CR) → CR ∉ cs →
    (cs = [] → line = []) → (cs ≠ [] → cs.getLast? = some NL) →
    ((getlines cs line).map stripLineEnd).flatMap (fun l => l ++ [NL]) = line ++ cs := by
  intro cs
  induction cs with
  | nil =>
    intro line _ _ h _
    rw [h rfl]
    rfl
  | cons c cs ih =>
    intro line hline hcr _ hlast
    have hcr' : CR ∉ cs := fun h => hcr (List.mem_cons_of_mem _ h)
    have hc : c ≠ CR := fun h => hcr (by rw [h]; exact List.mem_cons_self _ _)
    have hlast' : cs ≠ [] → cs.getLast? = some NL := by
      intro hne
      obtain ⟨d, ds, rfl⟩ := List.exists_cons_of_ne_nil hne
      have := hlast (by simp)
      rwa [List.getLast?_cons_cons] at this
    unfold getlines
    by_cases hnl : c = NL
    · rw [if_pos hnl]
      simp only [List.map_cons, List.flatMap_cons]
      rw [stripLineEnd_line line hline, ih [] (by simp) hcr' (fun _ => rfl) hlast', hnl]
      simp
    · rw [if_neg hnl]
      have hne : cs ≠ [] := by
        intro h
        have := hlast (by simp)
        rw [h] at this
        simp at this
        exact hnl this
      rw [ih (line ++ [c]) ?_ hcr' (fun h => absurd h hne) hlast']
      · simp
      · intro x hx
        rcases List.mem_append.1 hx with hx | hx
        · exact hline x hx
        · rw [List.mem_singleton.1 hx]
          exact ⟨hnl, hc⟩

theorem editorOpen_row (lines : List (List Nat)) : ∀ (E : editorConfig),
    (lines.foldl (fun E line => editorInsertRow E E.numrows (stripLineEnd line)) E).row =
      E.row ++ lines.map (fun l => editorUpdateRow ⟨stripLineEnd l, []⟩) := by
  induction lines with
  | nil => intro E; simp
  | cons l ls ih =>
    intro E
    rw [List.foldl_cons, ih]
    rw [editorInsertRow_split E E.row [] _ (by simp) E.numrows rfl]
    simp

theorem editorRowsToString_buff (rows : List erow) : ∀ (buff : List Nat),
    rows.foldl (fun buff row => buff ++ row.chars ++ [NL]) buff =
      buff ++ (rows.map erow.chars).flatMap (fun l => l ++ [NL]) := by
  induction rows with
  | nil => intro buff; simp
  | cons r rs ih =>
    intro buff
    rw [List.foldl_cons, ih]
    simp

theorem editorRowsToString_totlen (rows : List erow) : ∀ (totlen : Int),
    rows.foldl (fun totlen row => totlen + row.size + 1) totlen =
      totlen + (((rows.map erow.chars).flatMap (fun l => l ++ [NL])).length : Int) := by
  induction rows with
  | nil => intro n; simp
  | cons r rs ih =>
    intro n
    rw [List.foldl_cons, ih]
    simp [erow.size]
    omega

/-- Claim C2, amended: for every file content without a `'\r'` byte that is
empty or ends with `'\n'`, loading it into an empty buffer as `editorOpen` does
and serialising the buffer with `editorRowsToString` gives back exactly the
bytes of the file, and `buflen` is their number. -/
theorem editorOpen_roundtrip (E : editorConfig) (file : List Nat)
    (hE : E.row = []) (hcr : CR ∉ file) (hnl : file = [] ∨ file.getLast? = some NL) :
    editorRowsToString (editorOpen E file) = (file, (file.length : Int)) := by
  have hflat := getlines_flat file [] (by simp) hcr (fun _ => rfl)
    (fun hne => hnl.resolve_left hne)
  unfold editorRowsToString editorOpen
  simp only []
  rw [editorRowsToString_buff, editorRowsToString_totlen, editorOpen_row, hE]
  simp only [List.nil_append, List.map_map]
  have hmap : List.map (erow.chars ∘ fun l => editorUpdateRow ⟨stripLineEnd l, []⟩)
      (getlines file []) = (getlines file []).map stripLineEnd := by
    apply List.map_congr_left
    intro l _
    rfl
  rw [hmap, hflat]
  simp


/-- Claim C2, amended, at the file `"ab\n\ncd\n"`. -/
theorem editorOpen_roundtrip_witness :
    editorRowsToString (editorOpen (initEditor 24 80) [97, 98, 10, 10, 99, 100, 10]) =
      ([97, 98, 10, 10, 99, 100, 10], 7) :=
  editorOpen_roundtrip (initEditor 24 80) [97, 98, 10, 10, 99, 100, 10] rfl (by decide)
    (Or.inr (by decide))

/-- Claim C2 fails as stated: the file `"abc"` holds no `'\r'`, is loaded as
the single line `"abc"` and is serialised as the four bytes `"abc\n"`. -/
theorem editorOpen_roundtrip_counterexample :
    CR ∉ ([97, 98, 99] : List Nat) ∧
    editorRowsToString (editorOpen (initEditor 24 80) [97, 98, 99]) = ([97, 98, 99, 10], 4) ∧
    (editorRowsToString (editorOpen (initEditor 24 80) [97, 98, 99])).1 ≠ [97, 98, 99] := by
  decide


/-! ## Key handling -/

theorem getRow_none_of_ge (E : editorConfig) (i : Int) (h : E.numrows ≤ i) :
    E.getRow i = none := by
  unfold editorConfig.getRow
  unfold editorConfig.numrows at h
  split
  · exact List.getElem?_eq_none (by omega)
  · rfl

theorem lineSize_of_getRow (E : editorConfig) (i : Int) (r : erow) (h : E.getRow i = some r) :
    lineSize E i = r.size := by
  unfold lineSize
  rw [h]

theorem lineSize_of_ge (E : editorConfig) (i : Int) (h : E.numrows ≤ i) : lineSize E i = 0 := by
  unfold lineSize
  rw [getRow_none_of_ge E i h]

theorem editorInsertChar_isSome (E : editorConfig) (c : Int)
    (hcy0 : 0 ≤ E.cy) (hcy : E.cy ≤ E.numrows) : ∃ E', editorInsertChar E c = some E' := by
  by_cases hend : E.cy = E.numrows
  · exact ⟨_, editorInsertChar_end E c hend⟩
  · obtain ⟨A, r, B, h, hA, _⟩ := getRow_exists_split E E.cy hcy0 (by omega)
    exact ⟨_, editorInsertChar_split E A B r c h hA⟩

theorem editorInsertNewLine_isSome (E : editorConfig)
    (hcy0 : 0 ≤ E.cy) (hcy : E.cy ≤ E.numrows) (hcx0 : 0 ≤ E.cx) (hcx : E.cx ≤ lineSize E E.cy) :
    ∃ E', editorInsertNewLine E = some E' := by
  by_cases hz : E.cx = 0
  · obtain ⟨A, B, h, hA⟩ := exists_take_drop E E.cy hcy0 hcy
    exact ⟨_, editorInsertNewLine_zero E A B h hA hz⟩
  · have hlt : E.cy < E.numrows := by
      by_contra hge
      rw [lineSize_of_ge E E.cy (by omega)] at hcx
      omega
    obtain ⟨A, r, B, h, hA, hget⟩ := getRow_exists_split E E.cy hcy0 hlt
    rw [lineSize_of_getRow E E.cy r hget] at hcx
    exact ⟨_, editorInsertNewLine_pos E A B r h hA (by omega) hcx⟩

theorem editorDelChar_isSome (E : editorConfig)
    (hcy0 : 0 ≤ E.cy) (hcy : E.cy ≤ E.numrows) (hcx0 : 0 ≤ E.cx)
    (hcx : E.cx ≤ lineSize E E.cy + 1)
    (hlast : E.cy < E.numrows → E.cx = lineSize E E.cy + 1 → 0 < lineSize E E.cy) :
    ∃ E', editorDelChar E = some E' := by
  by_cases hend : E.cy = E.numrows
  · exact ⟨E, by unfold editorDelChar; rw [if_pos hend]⟩
  by_cases horigin : E.cx = 0 ∧ E.cy = 0
  · exact ⟨E, by unfold editorDelChar; rw [if_neg hend, if_pos horigin]⟩
  have hlt : E.cy < E.numrows := by omega
  by_cases hpos : 0 < E.cx
  · obtain ⟨A, r, B, h, hA, hget⟩ := getRow_exists_split E E.cy hcy0 hlt
    rw [lineSize_of_getRow E E.cy r hget] at hcx
    have hl := hlast hlt
    rw [lineSize_of_getRow E E.cy r hget] at hl
    unfold editorDelChar
    rw [if_neg hend, if_neg horigin, if_pos (by omega), hget]
    simp only [editorRowDelChar]
    rw [if_neg (by omega)]
    by_cases hin : E.cx - 1 < r.size
    · rw [if_pos ⟨by omega, hin⟩]
      exact ⟨_, rfl⟩
    · rw [if_neg (by omega), if_pos ⟨by omega, hl (by omega)⟩]
      exact ⟨_, rfl⟩
  · have hcx : E.cx = 0 := by omega
    have hcy1 : 1 ≤ E.cy := by
      by_contra hc
      exact horigin ⟨hcx, by omega⟩
    obtain ⟨A, p, B', h, hA, _⟩ := getRow_exists_split E (E.cy - 1) (by omega) (by omega)
    have hB : B' ≠ [] := by
      intro hB
      unfold editorConfig.numrows at hlt
      rw [h, hB] at hlt
      simp at hlt
      omega
    obtain ⟨r, B, rfl⟩ := List.exists_cons_of_ne_nil hB
    exact ⟨_, editorDelChar_merge E A B p r h (by omega) hcx⟩

theorem CTRL_KEY_q : CTRL_KEY 'q' = 17 := by decide
theorem CTRL_KEY_f : CTRL_KEY 'f' = 6 := by decide
theorem CTRL_KEY_h : CTRL_KEY 'h' = 8 := by decide
theorem CTRL_KEY_l : CTRL_KEY 'l' = 12 := by decide
theorem CTRL_KEY_s : CTRL_KEY 's' = 19 := by decide

theorem editorProcessKeypress_quit (E : editorConfig) (q : Int) (query : Option (List Nat))
    (saved : Bool) (hd : E.dirty ≠ 0) (hq : 0 < q) :
    editorProcessKeypress E q (CTRL_KEY 'q') query saved = some (Outcome.running E (q - 1)) := by
  unfold editorProcessKeypress
  rw [CTRL_KEY_q, if_neg (by decide), if_pos rfl, if_pos ⟨hd, hq⟩]

theorem some_map_running (o : Option editorConfig) (out : Outcome)
    (h : o.map (fun E1 => Outcome.running E1 KILO_QUIT_CONFIRM) = some out) :
    ∃ E', out = Outcome.running E' KILO_QUIT_CONFIRM := by
  cases o with
  | none => exact absurd h (by simp)
  | some E1 => exact ⟨E1, (Option.some.inj h).symm⟩

theorem some_page_running (E1 : editorConfig) (key : Int) (out : Outcome)
    (h : (if 0 ≤ E1.screenrows then
        some (Outcome.running (pageMoves E1.screenrows.toNat key E1) KILO_QUIT_CONFIRM)
      else none) = some out) :
    ∃ E', out = Outcome.running E' KILO_QUIT_CONFIRM := by
  split at h
  · exact ⟨_, (Option.some.inj h).symm⟩
  · exact absurd h (by simp)

theorem editorProcessKeypress_other (E : editorConfig) (q ch : Int) (query : Option (List Nat))
    (saved : Bool) (out : Outcome) (hch : ch ≠ CTRL_KEY 'q')
    (h : editorProcessKeypress E q ch query saved = some out) :
    ∃ E', out = Outcome.running E' KILO_QUIT_CONFIRM := by
  unfold editorProcessKeypress at h
  by_cases h1 : ch = 13
  · rw [if_pos h1] at h
    exact some_map_running _ out h
  rw [if_neg h1, if_neg hch] at h
  by_cases h2 : ch = ARROW_UP ∨ ch = ARROW_LEFT ∨ ch = ARROW_DOWN ∨ ch = ARROW_RIGHT
  · rw [if_pos h2] at h
    exact ⟨_, (Option.some.inj h).symm⟩
  rw [if_neg h2] at h
  by_cases h3 : ch = PAGE_UP ∨ ch = PAGE_DOWN
  · rw [if_pos h3] at h
    exact some_page_running _ _ out h
  rw [if_neg h3] at h
  by_cases h4 : ch = HOME_KEY
  · rw [if_pos h4] at h
    exact ⟨_, (Option.some.inj h).symm⟩
  rw [if_neg h4] at h
  by_cases h5 : ch = END_KEY
  · rw [if_pos h5] at h
    split at h
    · split at h
      · exact absurd h (by simp)
      · exact ⟨_, (Option.some.inj h).symm⟩
    · exact ⟨_, (Option.some.inj h).symm⟩
  rw [if_neg h5] at h
  by_cases h6 : ch = CTRL_KEY 'f'
  · rw [if_pos h6] at h
    exact ⟨_, (Option.some.inj h).symm⟩
  rw [if_neg h6] at h
  by_cases h7 : ch = DEL_KEY ∨ ch = CTRL_KEY 'h' ∨ ch = BACKSPACE
  · rw [if_pos h7] at h
    exact some_map_running _ out h
  rw [if_neg h7] at h
  by_cases h8 : ch = CTRL_KEY 'l' ∨ ch = 27
  · rw [if_pos h8] at h
    exact ⟨_, (Option.some.inj h).symm⟩
  rw [if_neg h8] at h
  by_cases h9 : ch = CTRL_KEY 's'
  · rw [if_pos h9] at h
    exact ⟨_, (Option.some.inj h).symm⟩
  rw [if_neg h9] at h
  exact some_map_running _ out h

theorem editorMoveCursor_right (E : editorConfig) :
    editorMoveCursor E ARROW_RIGHT = { E with cx := E.cx + 1 } := by
  unfold editorMoveCursor
  rw [if_neg (by decide), if_neg (by decide), if_neg (by decide), if_pos rfl]

theorem map_running_isSome (o : Option editorConfig) (h : ∃ E', o = some E') :
    ∃ out, o.map (fun E1 => Outcome.running E1 KILO_QUIT_CONFIRM) = some out := by
  obtain ⟨E', rfl⟩ := h
  exact ⟨_, rfl⟩

theorem page_running_isSome (E1 : editorConfig) (key : Int) (h : 0 ≤ E1.screenrows) :
    ∃ out, (if 0 ≤ E1.screenrows then
        some (Outcome.running (pageMoves E1.screenrows.toNat key E1) KILO_QUIT_CONFIRM)
      else none) = some out := by
  rw [if_pos h]
  exact ⟨_, rfl⟩

theorem editorProcessKeypress_isSome (E : editorConfig) (q ch : Int)
    (query : Option (List Nat)) (saved : Bool)
    (hcy0 : 0 ≤ E.cy) (hcy : E.cy ≤ E.numrows) (hcx0 : 0 ≤ E.cx) (hcx : E.cx ≤ lineSize E E.cy)
    (hrows : 0 ≤ E.screenrows)
    (hdel : ch = DEL_KEY → E.cy < E.numrows → 0 < lineSize E E.cy) :
    ∃ out, editorProcessKeypress E q ch query saved = some out := by
  unfold editorProcessKeypress
  by_cases h1 : ch = 13
  · rw [if_pos h1]
    exact map_running_isSome _ (editorInsertNewLine_isSome E hcy0 hcy hcx0 hcx)
  rw [if_neg h1]
  by_cases hq : ch = CTRL_KEY 'q'
  · rw [if_pos hq]
    split
    · exact ⟨_, rfl⟩
    · exact ⟨_, rfl⟩
  rw [if_neg hq]
  by_cases h2 : ch = ARROW_UP ∨ ch = ARROW_LEFT ∨ ch = ARROW_DOWN ∨ ch = ARROW_RIGHT
  · rw [if_pos h2]
    exact ⟨_, rfl⟩
  rw [if_neg h2]
  by_cases h3 : ch = PAGE_UP ∨ ch = PAGE_DOWN
  · rw [if_pos h3]
    refine page_running_isSome _ _ ?_
    split_ifs
    · exact hrows
    · simp only []
      split_ifs <;> exact hrows
    · exact hrows
  rw [if_neg h3]
  by_cases h4 : ch = HOME_KEY
  · rw [if_pos h4]
    exact ⟨_, rfl⟩
  rw [if_neg h4]
  by_cases h5 : ch = END_KEY
  · rw [if_pos h5]
    by_cases hlt : E.cy < E.numrows
    · rw [if_pos hlt]
      obtain ⟨A, r, B, _, _, hget⟩ := getRow_exists_split E E.cy hcy0 hlt
      rw [hget]
      exact ⟨_, rfl⟩
    · rw [if_neg hlt]
      exact ⟨_, rfl⟩
  rw [if_neg h5]
  by_cases h6 : ch = CTRL_KEY 'f'
  · rw [if_pos h6]
    exact ⟨_, rfl⟩
  rw [if_neg h6]
  by_cases h7 : ch = DEL_KEY ∨ ch = CTRL_KEY 'h' ∨ ch = BACKSPACE
  · rw [if_pos h7]
    apply map_running_isSome
    by_cases hd : ch = DEL_KEY
    · simp only [if_pos hd]
      rw [editorMoveCursor_right]
      refine editorDelChar_isSome { E with cx := E.cx + 1 } hcy0 hcy ?_ ?_ ?_
      · show 0 ≤ E.cx + 1
        omega
      · show E.cx + 1 ≤ lineSize E E.cy + 1
        omega
      · intro hlt _
        exact hdel hd hlt
    · simp only [if_neg hd]
      apply editorDelChar_isSome E hcy0 hcy hcx0 (by omega)
      intro _ h
      omega
  rw [if_neg h7]
  by_cases h8 : ch = CTRL_KEY 'l' ∨ ch = 27
  · rw [if_pos h8]
    exact ⟨_, rfl⟩
  rw [if_neg h8]
  by_cases h9 : ch = CTRL_KEY 's'
  · rw [if_pos h9]
    exact ⟨_, rfl⟩
  rw [if_neg h9]
  exact map_running_isSome _ (editorInsertChar_isSome E ch hcy0 hcy)

theorem processKeys_quit (E : editorConfig) (query : Option (List Nat)) (saved : Bool)
    (hd : E.dirty ≠ 0) : ∀ (k : Nat) (q : Int), (k : Int) ≤ q →
    processKeys query saved (List.replicate k (CTRL_KEY 'q')) E q =
      some (Outcome.running E (q - k)) := by
  intro k
  induction k with
  | zero =>
    intro q _
    simp [processKeys]
  | succ k ih =>
    intro q hq
    rw [List.replicate_succ]
    unfold processKeys
    rw [editorProcessKeypress_quit E q query saved hd (by omega)]
    simp only []
    rw [ih (q - 1) (by omega)]
    congr 2
    push_cast
    omega

/-- Claim C9: quit confirmation, with `N = KILO_QUIT_CONFIRM` and the counter
`quit_times` initially `N`.  For a document with `dirty != 0`, `k <= N - 1`
consecutive Ctrl-Q keypresses handled by `editorProcessKeypress` leave the
process running with `quit_times = N - k` (each press takes exactly 1 off the
counter, as every Ctrl-Q press on a positive counter does); and every call of
`editorProcessKeypress` for a key other than Ctrl-Q that returns leaves the
process running with `quit_times = N`.  Such a call does return when the cursor
is valid, `screenrows >= 0` and the key is not Delete on an empty line. -/
theorem quit_confirmation (E : editorConfig) (hd : E.dirty ≠ 0) :
    (∀ (k : Nat) query saved, (k : Int) ≤ KILO_QUIT_CONFIRM - 1 →
      processKeys query saved (List.replicate k (CTRL_KEY 'q')) E KILO_QUIT_CONFIRM =
        some (Outcome.running E (KILO_QUIT_CONFIRM - k))) ∧
    (∀ q query saved, 0 < q →
      editorProcessKeypress E q (CTRL_KEY 'q') query saved =
        some (Outcome.running E (q - 1))) ∧
    (∀ ch q query saved out, ch ≠ CTRL_KEY 'q' →
      editorProcessKeypress E q ch query saved = some out →
      ∃ E', out = Outcome.running E' KILO_QUIT_CONFIRM) ∧
    (∀ ch q query saved, ch ≠ CTRL_KEY 'q' →
      0 ≤ E.cy → E.cy ≤ E.numrows → 0 ≤ E.cx → E.cx ≤ lineSize E E.cy → 0 ≤ E.screenrows →
      (ch = DEL_KEY → E.cy < E.numrows → 0 < lineSize E E.cy) →
      ∃ E', editorProcessKeypress E q ch query saved =
        some (Outcome.running E' KILO_QUIT_CONFIRM)) := by
  refine ⟨?_, ?_, ?_, ?_⟩
  · intro k query saved hk
    exact processKeys_quit E query saved hd k KILO_QUIT_CONFIRM (by omega)
  · intro q query saved hq
    exact editorProcessKeypress_quit E q query saved hd hq
  · intro ch q query saved out hch h
    exact editorProcessKeypress_other E q ch query saved out hch h
  · intro ch q query saved hch hcy0 hcy hcx0 hcx hrows hdel
    obtain ⟨out, hout⟩ :=
      editorProcessKeypress_isSome E q ch query saved hcy0 hcy hcx0 hcx hrows hdel
    obtain ⟨E', rfl⟩ := editorProcessKeypress_other E q ch query saved out hch hout
    exact ⟨E', hout⟩

/-- Claim C9 at the document `["a"]` after one edit: one Ctrl-Q press leaves
the process running with the counter at 1. -/
theorem quit_confirmation_witness :
    processKeys none false [CTRL_KEY 'q'] { docOf [[97]] with dirty := 1 } KILO_QUIT_CONFIRM =
      some (Outcome.running { docOf [[97]] with dirty := 1 } 1) :=
  (quit_confirmation { docOf [[97]] with dirty := 1 } (by decide)).1 1 none false (by decide)

set_option maxRecDepth 20000 in
/-- Claim C6 fails on Page Down: after loading the one-line file `"a\n"` in a
window of 24 rows (`screenrows = 22`), with the cursor on line 0, the key
`PAGE_DOWN` leaves `cy = 21` while `numrows = 1`. -/
theorem editorProcessKeypress_pageDown_cy :
    (editorOpen (initEditor 24 80) [97, 10]).cy = 0 ∧
    (editorOpen (initEditor 24 80) [97, 10]).numrows = 1 ∧
    editorProcessKeypress (editorOpen (initEditor 24 80) [97, 10]) KILO_QUIT_CONFIRM
        PAGE_DOWN none false =
      some (Outcome.running { editorOpen (initEditor 24 80) [97, 10] with cy := 21 }
        KILO_QUIT_CONFIRM) ∧
    ¬ (({ editorOpen (initEditor 24 80) [97, 10] with cy := 21 } : editorConfig).cy ≤
      ({ editorOpen (initEditor 24 80) [97, 10] with cy := 21 } : editorConfig).numrows) := by
  decide



/-! ## Deleting a row -/

theorem editorDelRow_noop (E : editorConfig) (t : Int) (h : t < 0 ∨ t = E.numrows) :
    editorDelRow E t = some E := by
  unfold editorDelRow
  rw [if_pos h]

theorem editorDelRow_in_range (E : editorConfig) (t : Int) (h0 : 0 ≤ t) (h1 : t < E.numrows) :
    editorDelRow E t =
      some { E with row := E.row.eraseIdx t.toNat, dirty := E.dirty + 1 } := by
  unfold editorDelRow
  rw [if_neg (by omega), if_pos h1]

theorem editorDelRow_above (E : editorConfig) (t : Int) (h : E.numrows < t) :
    editorDelRow E t = none := by
  unfold editorDelRow
  have hn : 0 ≤ E.numrows := by unfold editorConfig.numrows; omega
  rw [if_neg (by omega), if_neg (by omega)]

/-- Claim C11 fails above `numrows`: on the one-line buffer `["a"]` the call
`editorDelRow(2)` passes the guard `t<0 || t==E.numrows` and works on
`E.row[2]`, outside the buffer; it has no result, so it is not the no-op that
leaves the state as it was. -/
theorem editorDelRow_above_numrows :
    (docOf [[97]]).numrows = 1 ∧
    ¬ ((2 : Int) < 0 ∨ (2 : Int) = (docOf [[97]]).numrows) ∧
    editorDelRow (docOf [[97]]) 2 = none ∧
    editorDelRow (docOf [[97]]) 2 ≠ some (docOf [[97]]) := by
  decide

/-! ## Serialising the buffer -/

/-- Claim C12: for every buffer `editorRowsToString` returns the concatenation,
in line order, of each line's `chars` followed by one `'\n'`, and `buflen` is
the sum over the lines of `size + 1`, which is the number of bytes returned; the
empty buffer gives no byte and `buflen = 0`. -/
theorem editorRowsToString_spec (E : editorConfig) :
    (editorRowsToString E).1 = (contents E).flatMap (fun l => l ++ [NL]) ∧
    (editorRowsToString E).2 = (E.row.map (fun row => row.size + 1)).sum ∧
    (editorRowsToString E).2 = ((editorRowsToString E).1.length : Int) ∧
    editorRowsToString { E with row := [] } = ([], 0) := by
  have hbuf := editorRowsToString_buff E.row []
  have htot := editorRowsToString_totlen E.row 0
  refine ⟨?_, ?_, ?_, rfl⟩
  · unfold editorRowsToString contents
    simp only [hbuf, List.nil_append]
  · unfold editorRowsToString
    simp only []
    generalize E.row = rows
    have key : ∀ (rows : List erow) (n : Int),
        rows.foldl (fun totlen row => totlen + row.size + 1) n =
          n + (rows.map (fun row => row.size + 1)).sum := by
      intro rows
      induction rows with
      | nil => intro n; simp
      | cons r rs ih =>
        intro n
        rw [List.foldl_cons, ih]
        simp only [List.map_cons, List.sum_cons]
        omega
    rw [key]
    omega
  · unfold editorRowsToString
    simp only [hbuf, htot, List.nil_append]
    omega


/-! ## Splitting a line -/

/-- Claim C13: for every state with `0 <= cy < numrows` and `0 <= cx <= size`
of line `cy`, `editorInsertNewLine` puts the two lines `chars[0..cx)` and
`chars[cx..size)` in the place of line `cy`, leaves every other line unchanged
and in order, increases `numrows` by 1 and puts the cursor at column 0 of line
`cy + 1`; for `cx = 0` the second of the two lines is the former line `cy`
itself, unchanged. -/
theorem editorInsertNewLine_spec (E : editorConfig)
    (hcy0 : 0 ≤ E.cy) (hcy1 : E.cy < E.numrows)
    (hcx0 : 0 ≤ E.cx) (hcx1 : E.cx ≤ lineSize E E.cy) :
    ∃ E' row, editorInsertNewLine E = some E' ∧ E.getRow E.cy = some row ∧
      contents E' = (contents E).take E.cy.toNat ++
        row.chars.take E.cx.toNat :: row.chars.drop E.cx.toNat ::
          (contents E).drop (E.cy.toNat + 1) ∧
      E'.row.take E.cy.toNat = E.row.take E.cy.toNat ∧
      E'.row.drop (E.cy.toNat + 2) = E.row.drop (E.cy.toNat + 1) ∧
      (E.cx = 0 → E'.getRow (E.cy + 1) = some row) ∧
      E'.numrows = E.numrows + 1 ∧
      E'.cy = E.cy + 1 ∧ E'.cx = 0 := by
  obtain ⟨A, r, B, h, hA, hget⟩ := getRow_exists_split E E.cy hcy0 hcy1
  have hsz : E.cx ≤ r.size := by
    rw [lineSize_of_getRow E E.cy r hget] at hcx1
    exact hcx1
  have hn : E.cy.toNat = A.length := by omega
  have hdrop2 : ∀ (x y : erow), (A ++ x :: y :: B).drop (A.length + 2) = B := by
    intro x y
    have : A ++ x :: y :: B = (A ++ [x, y]) ++ B := by simp
    rw [this]
    exact List.drop_left' (by simp)
  have hctake : (contents E).take A.length = A.map erow.chars := by
    unfold contents
    rw [h, List.map_append]
    exact List.take_left' (by simp)
  have hcdrop : (contents E).drop (A.length + 1) = B.map erow.chars := by
    unfold contents
    rw [h, List.map_append, List.map_cons]
    have : List.map erow.chars A ++ r.chars :: List.map erow.chars B =
        (List.map erow.chars A ++ [r.chars]) ++ List.map erow.chars B := by simp
    rw [this]
    exact List.drop_left' (by simp)
  by_cases hz : E.cx = 0
  · refine ⟨_, r, editorInsertNewLine_zero E A (r :: B) h hA hz, hget, ?_, ?_, ?_, ?_, ?_,
      rfl, rfl⟩
    · rw [hn, hctake, hcdrop, hz]
      simp [contents, editorUpdateRow]
    · simp only []
      rw [hn, h, List.take_left, List.take_left]
    · simp only []
      rw [hn, h, hdrop2, split_drop_succ]
    · intro _
      exact getRow_split_succ _ A B _ r rfl _ (by simp [hA])
    · simp [editorConfig.numrows, h]
      omega
  · have hpos : 0 < E.cx := by omega
    refine ⟨_, r, editorInsertNewLine_pos E A B r h hA hpos hsz, hget, ?_, ?_, ?_, ?_, ?_,
      rfl, rfl⟩
    · rw [hn, hctake, hcdrop]
      simp [contents, editorUpdateRow]
    · simp only []
      rw [hn, h, List.take_left, List.take_left]
    · simp only []
      rw [hn, h, hdrop2, split_drop_succ]
    · intro h0
      exact absurd h0 hz
    · simp [editorConfig.numrows, h]
      omega

/-- Claim C13 at the document `["abc", "de"]` with the cursor at line 0,
column 3: the buffer becomes `["abc", "", "de"]` and the cursor goes to line 1,
column 0. -/
theorem editorInsertNewLine_spec_witness :
    ∃ E', editorInsertNewLine { docOf [[97, 98, 99], [100, 101]] with cx := 3 } = some E' ∧
      contents E' = [[97, 98, 99], [], [100, 101]] ∧ E'.numrows = 3 ∧
      E'.cy = 1 ∧ E'.cx = 0 := by
  obtain ⟨E', row, h1, h2, h3, _, _, _, h7, h8, h9⟩ :=
    editorInsertNewLine_spec { docOf [[97, 98, 99], [100, 101]] with cx := 3 }
      (by decide) (by decide) (by decide) (by decide)
  have hrow : row = ⟨[97, 98, 99], [97, 98, 99]⟩ := by
    have : ({ docOf [[97, 98, 99], [100, 101]] with cx := 3 } : editorConfig).getRow 0 =
        some ⟨[97, 98, 99], [97, 98, 99]⟩ := by decide
    exact Option.some.inj (h2.symm.trans this)
  subst hrow
  exact ⟨E', h1, h3, h7, h8, h9⟩

/-! ## Moving right -/

/-- Claim C18, amended: for every state with `0 <= cy < numrows` and
`0 <= cx <= size` of line `cy`, `editorMoveCursor(ARROW_RIGHT)` adds 1 to `cx`
and changes nothing else, so the new column is at most `size + 1`; it is at most
`size` exactly when the old column was before the end of the line, and it is
`size + 1` when the cursor was at the end of the line. -/
theorem editorMoveCursor_right_spec (E : editorConfig)
    (hcy0 : 0 ≤ E.cy) (hcy1 : E.cy < E.numrows)
    (hcx0 : 0 ≤ E.cx) (hcx1 : E.cx ≤ lineSize E E.cy) :
    editorMoveCursor E ARROW_RIGHT = { E with cx := E.cx + 1 } ∧
    (editorMoveCursor E ARROW_RIGHT).cx ≤
      lineSize (editorMoveCursor E ARROW_RIGHT) (editorMoveCursor E ARROW_RIGHT).cy + 1 ∧
    ((editorMoveCursor E ARROW_RIGHT).cx ≤
      lineSize (editorMoveCursor E ARROW_RIGHT) (editorMoveCursor E ARROW_RIGHT).cy ↔
        E.cx < lineSize E E.cy) ∧
    (E.cx = lineSize E E.cy →
      (editorMoveCursor E ARROW_RIGHT).cx = lineSize E E.cy + 1) := by
  rw [editorMoveCursor_right]
  have hl : lineSize { E with cx := E.cx + 1 } E.cy = lineSize E E.cy := rfl
  refine ⟨rfl, ?_, ?_, ?_⟩
  · show E.cx + 1 ≤ lineSize { E with cx := E.cx + 1 } E.cy + 1
    rw [hl]
    omega
  · show E.cx + 1 ≤ lineSize { E with cx := E.cx + 1 } E.cy ↔ E.cx < lineSize E E.cy
    rw [hl]
    omega
  · intro h
    show E.cx + 1 = lineSize E E.cy + 1
    omega

/-- Claim C18, amended, at the document `["ab"]` with the cursor at column 1:
the cursor moves to column 2, the end of the line. -/
theorem editorMoveCursor_right_spec_witness :
    editorMoveCursor { docOf [[97, 98]] with cx := 1 } ARROW_RIGHT =
      { docOf [[97, 98]] with cx := 2 } :=
  (editorMoveCursor_right_spec { docOf [[97, 98]] with cx := 1 }
    (by decide) (by decide) (by decide) (by decide)).1

/-- Claim C18 fails as stated: on the document `["ab"]` with the cursor at
column 2, the end of the line, `editorMoveCursor(ARROW_RIGHT)` leaves the cursor
at column 3, behind the size 2 of the line. -/
theorem editorMoveCursor_right_counterexample :
    (0 : Int) ≤ ({ docOf [[97, 98]] with cx := 2 } : editorConfig).cy ∧
    ({ docOf [[97, 98]] with cx := 2 } : editorConfig).cy <
      ({ docOf [[97, 98]] with cx := 2 } : editorConfig).numrows ∧
    ({ docOf [[97, 98]] with cx := 2 } : editorConfig).cx ≤
      lineSize { docOf [[97, 98]] with cx := 2 } 0 ∧
    (editorMoveCursor { docOf [[97, 98]] with cx := 2 } ARROW_RIGHT).cx = 3 ∧
    ¬ ((editorMoveCursor { docOf [[97, 98]] with cx := 2 } ARROW_RIGHT).cx ≤
      lineSize (editorMoveCursor { docOf [[97, 98]] with cx := 2 } ARROW_RIGHT) 0) := by
  decide


/-! ## Render width -/

theorem rxStep_eq (c : Nat) (w : Int) :
    rxStep c w = if c = TAB then nextTabStop w else w + 1 := by
  unfold rxStep nextTabStop KILO_TAB_STOP
  split <;> omega

theorem nextTabStop_spec (w : Int) :
    (8 : Int) ∣ nextTabStop w ∧ w < nextTabStop w ∧
      ∀ m : Int, (8 : Int) ∣ m → w < m → nextTabStop w ≤ m := by
  unfold nextTabStop
  refine ⟨Dvd.intro _ rfl, by omega, ?_⟩
  intro m hm hw
  obtain ⟨k, rfl⟩ := hm
  omega

theorem renderWidth_append (a b : List Nat) (w : Int) :
    renderWidth (a ++ b) w = renderWidth b (renderWidth a w) := by
  induction a generalizing w with
  | nil => rfl
  | cons c cs ih => exact ih (if c = TAB then nextTabStop w else w + 1)

theorem renderWidth_ge (cs : List Nat) (w : Int) : w ≤ renderWidth cs w := by
  induction cs generalizing w with
  | nil => exact Int.le_refl _
  | cons c cs ih =>
    unfold renderWidth
    have h1 := ih (if c = TAB then nextTabStop w else w + 1)
    have h2 := rxStep_gt c w
    rw [rxStep_eq] at h2
    omega

theorem cxLoop_eq_renderWidth : ∀ (n : Nat) (cs : List Nat) (w : Int), n ≤ cs.length →
    editorRowCxToRx.loop n cs w = some (renderWidth (cs.take n) w) := by
  intro n
  induction n with
  | zero => intro cs w _; rfl
  | succ n ih =>
    intro cs w hlen
    cases cs with
    | nil => simp at hlen
    | cons c cs =>
      have hlen1 : n ≤ cs.length := by simpa using hlen
      simp only [editorRowCxToRx.loop, List.take_succ_cons, renderWidth, ih cs _ hlen1,
        rxStep_eq]

theorem editorRowCxToRx_eq_renderWidth (row : erow) (cx : Int) (h1 : cx ≤ row.size) :
    editorRowCxToRx row cx = some (renderWidth (row.chars.take cx.toNat) 0) := by
  unfold editorRowCxToRx
  apply cxLoop_eq_renderWidth
  unfold erow.size at h1
  omega

/-- Claim C16: for every line and every `cx` with `0 <= cx <= size`,
`editorRowCxToRx(line, cx)` is the width reached from 0 by walking
`chars[0..cx)`, a byte that is not a tab taking the width `w` to `w + 1` and a
tab taking it to `nextTabStop w`, which is the smallest multiple of 8 strictly
greater than `w`. -/
theorem editorRowCxToRx_spec (row : erow) (cx : Int) (h0 : 0 ≤ cx) (h1 : cx ≤ row.size) :
    editorRowCxToRx row cx = some (renderWidth (row.chars.take cx.toNat) 0) ∧
    (∀ w : Int, (8 : Int) ∣ nextTabStop w ∧ w < nextTabStop w ∧
      ∀ m : Int, (8 : Int) ∣ m → w < m → nextTabStop w ≤ m) :=
  ⟨editorRowCxToRx_eq_renderWidth row cx h1, nextTabStop_spec⟩

/-- Claim C16 at the line `"ab\tcd"` (tab at index 2) and `cx = 3`: the result
is 8. -/
theorem editorRowCxToRx_spec_witness :
    editorRowCxToRx ⟨[97, 98, 9, 99, 100], []⟩ 3 = some 8 ∧
    renderWidth [97, 98, 9] 0 = 8 :=
  ⟨((editorRowCxToRx_spec ⟨[97, 98, 9, 99, 100], []⟩ 3 (by decide) (by decide)).1).trans
      (by decide),
   by decide⟩


theorem renderWidth_take_succ (cs : List Nat) (n : Nat) (w : Int) (h : n < cs.length) :
    renderWidth (cs.take (n + 1)) w = rxStep cs[n] (renderWidth (cs.take n) w) := by
  rw [List.take_succ, renderWidth_append, List.getElem?_eq_getElem h]
  simp only [Option.toList, renderWidth, rxStep_eq]

theorem renderWidth_take_lt (cs : List Nat) (n : Nat) (w : Int) (h : n < cs.length) :
    renderWidth (cs.take n) w < renderWidth (cs.take (n + 1)) w := by
  rw [renderWidth_take_succ cs n w h]
  exact rxStep_gt _ _

theorem renderWidth_take_mono (cs : List Nat) (w : Int) (n m : Nat) (hnm : n ≤ m) :
    renderWidth (cs.take n) w ≤ renderWidth (cs.take m) w := by
  have h : cs.take m = cs.take n ++ (cs.drop n).take (m - n) := by
    have := List.take_add cs n (m - n)
    rwa [Nat.add_sub_cancel' hnm] at this
  rw [h, renderWidth_append]
  exact renderWidth_ge _ _

theorem rxLoop_spec (rx : Int) : ∀ (cs : List Nat) (cx0 cur : Int), cur ≤ rx →
    (rx < renderWidth cs cur →
      ∃ k : Nat, k < cs.length ∧ editorRowRxToCx.loop rx cs cx0 cur = cx0 + k ∧
        renderWidth (cs.take k) cur ≤ rx ∧ rx < renderWidth (cs.take (k + 1)) cur) ∧
    (renderWidth cs cur ≤ rx → editorRowRxToCx.loop rx cs cx0 cur = cx0 + cs.length) := by
  intro cs
  induction cs with
  | nil =>
    intro cx0 cur hcur
    refine ⟨?_, ?_⟩
    · intro h
      simp only [renderWidth] at h
      omega
    · intro _
      simp [editorRowRxToCx.loop]
  | cons c cs ih =>
    intro cx0 cur hcur
    have hge := renderWidth_ge cs (rxStep c cur)
    have hw : renderWidth (c :: cs) cur = renderWidth cs (rxStep c cur) := by
      simp only [renderWidth, rxStep_eq]
    rw [hw]
    by_cases hstep : rxStep c cur > rx
    · refine ⟨?_, ?_⟩
      · intro _
        refine ⟨0, by simp, ?_, ?_, ?_⟩
        · simp [editorRowRxToCx.loop, hstep]
        · simpa [renderWidth] using hcur
        · simpa [renderWidth, ← rxStep_eq] using hstep
      · intro h
        omega
    · have hle : rxStep c cur ≤ rx := by omega
      obtain ⟨ih1, ih2⟩ := ih (cx0 + 1) (rxStep c cur) hle
      have hloop : editorRowRxToCx.loop rx (c :: cs) cx0 cur =
          editorRowRxToCx.loop rx cs (cx0 + 1) (rxStep c cur) := by
        simp only [editorRowRxToCx.loop, if_neg hstep]
      rw [hloop]
      refine ⟨?_, ?_⟩
      · intro h
        obtain ⟨k, hk, hres, ha, hb⟩ := ih1 h
        refine ⟨k + 1, by simpa using hk, ?_, ?_, ?_⟩
        · rw [hres]
          push_cast
          omega
        · simpa [renderWidth, ← rxStep_eq] using ha
        · simpa [renderWidth, ← rxStep_eq] using hb
      · intro h
        rw [ih2 h]
        simp only [List.length_cons]
        push_cast
        omega

/-- Claim C17: for every line and every render column `rx >= 0`: if
`rx < editorRowCxToRx(line, size)`, the result `cx = editorRowRxToCx(line, rx)`
satisfies `0 <= cx < size` and
`editorRowCxToRx(line, cx) <= rx < editorRowCxToRx(line, cx + 1)`, and it is the
only buffer index that does (so every render column inside a tab's expansion
gives the index of that tab); if `rx >= editorRowCxToRx(line, size)`, the result
is `size`. -/
theorem editorRowRxToCx_spec (row : erow) (rx : Int) (h0 : 0 ≤ rx) :
    ∃ W, editorRowCxToRx row row.size = some W ∧
      (rx < W →
        0 ≤ editorRowRxToCx row rx ∧ editorRowRxToCx row rx < row.size ∧
        (∃ a b, editorRowCxToRx row (editorRowRxToCx row rx) = some a ∧
          editorRowCxToRx row (editorRowRxToCx row rx + 1) = some b ∧ a ≤ rx ∧ rx < b) ∧
        (∀ cx a b, 0 ≤ cx → cx < row.size →
          editorRowCxToRx row cx = some a → editorRowCxToRx row (cx + 1) = some b →
          a ≤ rx → rx < b → cx = editorRowRxToCx row rx)) ∧
      (W ≤ rx → editorRowRxToCx row rx = row.size) := by
  have hW := editorRowCxToRx_eq_renderWidth row row.size (Int.le_refl _)
  have htake : row.chars.take row.size.toNat = row.chars := by
    unfold erow.size
    simp
  rw [htake] at hW
  obtain ⟨hlt, hge⟩ := rxLoop_spec rx row.chars 0 0 h0
  refine ⟨_, hW, ?_, ?_⟩
  · intro hrx
    obtain ⟨k, hk, hres, ha, hb⟩ := hlt hrx
    have hcx : editorRowRxToCx row rx = (k : Int) := by
      unfold editorRowRxToCx
      rw [hres]
      omega
    have hsize : row.size = (row.chars.length : Int) := rfl
    rw [hcx]
    refine ⟨by omega, by omega, ?_, ?_⟩
    · refine ⟨_, _, editorRowCxToRx_eq_renderWidth row k (by omega),
        editorRowCxToRx_eq_renderWidth row (k + 1) (by omega), ?_, ?_⟩
      · simpa using ha
      · have : ((k : Int) + 1).toNat = k + 1 := by omega
        rw [this]
        exact hb
    · intro cx a b hc0 hc1 hca hcb hale hltb
      rw [editorRowCxToRx_eq_renderWidth row cx (by omega)] at hca
      rw [editorRowCxToRx_eq_renderWidth row (cx + 1) (by omega)] at hcb
      have e1 : (cx + 1).toNat = cx.toNat + 1 := by omega
      rw [e1] at hcb
      have hca' := Option.some.inj hca
      have hcb' := Option.some.inj hcb
      by_contra hne
      rcases Nat.lt_or_gt_of_ne (show cx.toNat ≠ k by omega) with hlt' | hgt'
      · have := renderWidth_take_mono row.chars 0 (cx.toNat + 1) k (by omega)
        omega
      · have := renderWidth_take_mono row.chars 0 (k + 1) cx.toNat (by omega)
        omega
  · intro hrx
    unfold editorRowRxToCx
    rw [hge hrx]
    unfold erow.size
    omega

/-- Claim C17 at the line `"a\tb"` and the render column 5, inside the
expansion of the tab at index 1. -/
theorem editorRowRxToCx_spec_witness :
    editorRowRxToCx ⟨[97, 9, 98], []⟩ 5 = 1 ∧
    ∃ W, editorRowCxToRx ⟨[97, 9, 98], []⟩ 3 = some W ∧ (5 : Int) < W := by
  obtain ⟨W, hW, _, _⟩ := editorRowRxToCx_spec ⟨[97, 9, 98], []⟩ 5 (by decide)
  have h9 : editorRowCxToRx ⟨[97, 9, 98], []⟩ 3 = some 9 := by decide
  have hWe : W = 9 := Option.some.inj (hW.symm.trans h9)
  exact ⟨by decide, W, hW, by rw [hWe]; decide⟩


/-! ## The render bytes and the render width -/

theorem pad_spec : ∀ (n : Nat) (r : List Nat),
    ∃ k, editorUpdateRow.pad n r = r ++ List.replicate k SPACE ∧
      ((8 - r.length % 8) % 8 ≤ n → k = (8 - r.length % 8) % 8) := by
  intro n
  induction n with
  | zero =>
    intro r
    exact ⟨0, by simp [editorUpdateRow.pad], fun h => by omega⟩
  | succ n ih =>
    intro r
    unfold editorUpdateRow.pad
    by_cases h : (r.length : Int) % KILO_TAB_STOP ≠ 0
    · rw [if_pos h]
      obtain ⟨k, hk, hfuel⟩ := ih (r ++ [SPACE])
      refine ⟨k + 1, ?_, ?_⟩
      · rw [hk, List.replicate_succ]
        simp
      · intro hn
        unfold KILO_TAB_STOP at h
        simp only [List.length_append, List.length_singleton] at hfuel
        have := hfuel (by omega)
        omega
    · rw [if_neg h]
      refine ⟨0, by simp, ?_⟩
      intro _
      unfold KILO_TAB_STOP at h
      omega

theorem pad_tab (r : List Nat) :
    ∃ k, editorUpdateRow.pad 8 (r ++ [SPACE]) = r ++ SPACE :: List.replicate k SPACE ∧
      ((r.length + 1 + k : Nat) : Int) = nextTabStop r.length := by
  obtain ⟨k, hk, hfuel⟩ := pad_spec 8 (r ++ [SPACE])
  refine ⟨k, by rw [hk]; simp, ?_⟩
  simp only [List.length_append, List.length_singleton] at hfuel
  have := hfuel (by omega)
  unfold nextTabStop
  omega

theorem updateLoop_spec : ∀ (cs r : List Nat),
    ∃ t, editorUpdateRow.loop cs r = r ++ t ∧
      ((r.length + t.length : Nat) : Int) = renderWidth cs r.length ∧
      (∀ c cs', cs = c :: cs' → t.head? = some (if c = TAB then SPACE else c)) := by
  intro cs
  induction cs with
  | nil =>
    intro r
    exact ⟨[], by simp [editorUpdateRow.loop], by simp [renderWidth], fun c cs' h => by cases h⟩
  | cons c cs ih =>
    intro r
    unfold editorUpdateRow.loop renderWidth
    by_cases hc : c = TAB
    · rw [if_pos hc, if_pos hc]
      obtain ⟨k, hk, hlen⟩ := pad_tab r
      obtain ⟨t, ht, htl, _⟩ := ih (editorUpdateRow.pad 8 (r ++ [SPACE]))
      rw [hk] at ht htl
      have hL : (r ++ SPACE :: List.replicate k SPACE).length = r.length + 1 + k := by
        simp only [List.length_append, List.length_cons, List.length_replicate]
        omega
      rw [hL, hlen] at htl
      refine ⟨SPACE :: List.replicate k SPACE ++ t, ?_, ?_, ?_⟩
      · rw [hk, ht]
        simp
      · rw [← htl]
        simp only [List.length_append, List.length_cons, List.length_replicate]
        push_cast
        omega
      · intro c' cs' h
        cases h
        simp [hc]
    · rw [if_neg hc, if_neg hc]
      obtain ⟨t, ht, htl, _⟩ := ih (r ++ [c])
      have hL : (((r ++ [c]).length : Nat) : Int) = (r.length : Int) + 1 := by
        simp only [List.length_append, List.length_singleton]
        push_cast
        rfl
      rw [hL] at htl
      refine ⟨c :: t, ?_, ?_, ?_⟩
      · rw [ht]
        simp
      · rw [← htl]
        simp only [List.length_append, List.length_cons, List.length_singleton, List.length_nil]
        push_cast
        omega
      · intro c' cs' h
        cases h
        simp [hc]

theorem updateLoop_append (a b r : List Nat) :
    editorUpdateRow.loop (a ++ b) r = editorUpdateRow.loop b (editorUpdateRow.loop a r) := by
  induction a generalizing r with
  | nil => rfl
  | cons c cs ih =>
    by_cases hc : c = TAB
    · simp only [List.cons_append, editorUpdateRow.loop, if_pos hc]
      exact ih _
    · simp only [List.cons_append, editorUpdateRow.loop, if_neg hc]
      exact ih _

theorem updateLoop_nil (cs : List Nat) :
    ((editorUpdateRow.loop cs []).length : Int) = renderWidth cs 0 := by
  obtain ⟨t, ht, htl, _⟩ := updateLoop_spec cs []
  rw [ht]
  simpa using htl

/-- Claim C20: the two tab expansions agree.  For every line, the `rsize` that
`editorUpdateRow` computes is `editorRowCxToRx(line, size)`, and for every `cx`
with `0 <= cx < size` the render byte at position `editorRowCxToRx(line, cx)` is
`chars[cx]` when that byte is not a tab and a space when it is. -/
theorem editorUpdateRow_editorRowCxToRx (row : erow) :
    editorRowCxToRx row row.size = some (editorUpdateRow row).rsize ∧
    ∀ cx : Int, 0 ≤ cx → cx < row.size →
      ∃ rx : Int, editorRowCxToRx row cx = some rx ∧ 0 ≤ rx ∧
        (editorUpdateRow row).render[rx.toNat]? =
          (row.chars[cx.toNat]?).map (fun c => if c = TAB then SPACE else c) := by
  refine ⟨?_, ?_⟩
  · rw [editorRowCxToRx_eq_renderWidth row row.size (Int.le_refl _)]
    have htake : row.chars.take row.size.toNat = row.chars := by
      unfold erow.size
      simp
    rw [htake]
    unfold erow.rsize editorUpdateRow
    simp only [updateLoop_nil]
  · intro cx h0 h1
    have hn : cx.toNat < row.chars.length := by
      unfold erow.size at h1
      omega
    refine ⟨_, editorRowCxToRx_eq_renderWidth row cx (by omega), ?_, ?_⟩
    · have := renderWidth_ge (row.chars.take cx.toNat) 0
      omega
    · have hsplit : row.chars =
          row.chars.take cx.toNat ++ row.chars[cx.toNat] :: row.chars.drop (cx.toNat + 1) := by
        rw [← List.drop_eq_getElem_cons hn, List.take_append_drop]
      have hl1 := updateLoop_nil (row.chars.take cx.toNat)
      obtain ⟨t2, ht2, _, hhead⟩ :=
        updateLoop_spec (row.chars[cx.toNat] :: row.chars.drop (cx.toNat + 1))
          (editorUpdateRow.loop (row.chars.take cx.toNat) [])
      have hrender : (editorUpdateRow row).render =
          editorUpdateRow.loop (row.chars.take cx.toNat) [] ++ t2 := by
        rw [← ht2]
        show editorUpdateRow.loop row.chars [] = _
        rw [← updateLoop_append, ← hsplit]
      generalize editorUpdateRow.loop (row.chars.take cx.toNat) [] = t1 at hl1 hrender
      have hw : (renderWidth (row.chars.take cx.toNat) 0).toNat = t1.length := by
        omega
      rw [hrender, hw, List.getElem?_append_right (Nat.le_refl _), Nat.sub_self,
        List.getElem?_eq_getElem hn]
      have := hhead _ _ rfl
      cases t2 with
      | nil => simp at this
      | cons x xs =>
        simp only [List.head?_cons, Option.some.injEq] at this
        simp [this]

/-- Claim C20 at the line `"a\tb"`: `rsize` is 9, and the render byte at
column 1, the render column of the tab at index 1, is a space. -/
theorem editorUpdateRow_editorRowCxToRx_witness :
    editorRowCxToRx ⟨[97, 9, 98], []⟩ 3 = some 9 ∧
    ∃ rx : Int, editorRowCxToRx ⟨[97, 9, 98], []⟩ 1 = some rx ∧ 0 ≤ rx ∧
      (editorUpdateRow ⟨[97, 9, 98], []⟩).render[rx.toNat]? = some 32 := by
  obtain ⟨h1, h2⟩ := editorUpdateRow_editorRowCxToRx ⟨[97, 9, 98], []⟩
  obtain ⟨rx, hrx, h0, hbyte⟩ := h2 1 (by decide) (by decide)
  exact ⟨h1.trans (by decide), rx, hrx, h0, hbyte.trans (by decide)⟩


/-! ## Reading a key -/

theorem editorReadKey_wait_pre (pre rest : List ReadResult) (b : Nat)
    (hpre : ∀ r ∈ pre, r = ReadResult.timeout) :
    editorReadKey.wait (pre ++ ReadResult.byte b :: rest) = some (b, rest) := by
  induction pre with
  | nil => rfl
  | cons r pre ih =>
    have hr : r = ReadResult.timeout := hpre r (List.mem_cons_self _ _)
    subst hr
    exact ih (fun x hx => hpre x (List.mem_cons_of_mem _ hx))

theorem editorReadKey_escape (signedChar : Bool) (pre tail : List ReadResult)
    (hpre : ∀ r ∈ pre, r = ReadResult.timeout) :
    editorReadKey signedChar (pre ++ ReadResult.byte 27 :: tail) =
      editorReadKey signedChar (ReadResult.byte 27 :: tail) := by
  unfold editorReadKey
  rw [editorReadKey_wait_pre pre tail 27 hpre]
  rfl

theorem editorReadKey_unrecognised (signedChar : Bool) (tail : List ReadResult)
    (h : recognisedSequence tail = false) :
    ∃ rest, editorReadKey signedChar (ReadResult.byte 27 :: tail) = some (27, rest) := by
  rcases tail with _ | ⟨r0, t1⟩
  · exact ⟨_, rfl⟩
  rcases r0 with s0 | _ | _
  rotate_left
  · exact ⟨_, rfl⟩
  · exact ⟨_, rfl⟩
  rcases t1 with _ | ⟨r1, t2⟩
  · exact ⟨_, rfl⟩
  rcases r1 with s1 | _ | _
  rotate_left
  · exact ⟨_, rfl⟩
  · exact ⟨_, rfl⟩
  simp only [editorReadKey, editorReadKey.wait, readByte, if_true]
  by_cases h91 : s0 = 91
  · subst h91
    simp only [recognisedSequence, Bool.or_eq_false_iff, Bool.and_eq_false_iff,
      decide_eq_false_iff_not] at h
    simp only [if_true]
    by_cases hd : 48 ≤ s1 ∧ s1 ≤ 57
    · rw [if_pos hd]
      rcases t2 with _ | ⟨r2, t3⟩
      · exact ⟨_, rfl⟩
      rcases r2 with s2 | _ | _
      rotate_left
      · exact ⟨_, rfl⟩
      · exact ⟨_, rfl⟩
      simp only []
      by_cases h126 : s2 = 126
      · subst h126
        simp only [if_true]
        have hnot : ¬ (s1 = 51 ∨ s1 = 53 ∨ s1 = 54 ∨ s1 = 55 ∨ s1 = 56) := by
          intro hdig
          rcases h.2 with h' | h'
          · omega
          · simp at h'
        rw [if_neg (by omega), if_neg (by omega), if_neg (by omega), if_neg (by omega),
          if_neg (by omega)]
        exact ⟨_, rfl⟩
      · rw [if_neg h126]
        exact ⟨_, rfl⟩
    · rw [if_neg hd]
      rw [if_neg (by omega), if_neg (by omega), if_neg (by omega), if_neg (by omega),
        if_neg (by omega), if_neg (by omega)]
      exact ⟨_, rfl⟩
  · rw [if_neg h91]
    by_cases h79 : s0 = 79
    · subst h79
      simp only [recognisedSequence, Bool.or_eq_false_iff, decide_eq_false_iff_not] at h
      rw [if_pos rfl, if_neg h.1, if_neg h.2]
      exact ⟨_, rfl⟩
    · rw [if_neg h79]
      exact ⟨_, rfl⟩


theorem editorReadKey_plain (signedChar : Bool) (pre rest : List ReadResult) (b : Nat)
    (hpre : ∀ r ∈ pre, r = ReadResult.timeout) (hb : b ≠ 27) :
    editorReadKey signedChar (pre ++ ReadResult.byte b :: rest) =
      some (charToInt signedChar b, rest) := by
  unfold editorReadKey
  rw [editorReadKey_wait_pre pre rest b hpre]
  simp only [if_neg hb]

theorem charToInt_spec (signedChar : Bool) (b : Nat) :
    (b < 128 → charToInt signedChar b = (b : Int)) ∧
    (signedChar = false → charToInt signedChar b = (b : Int)) ∧
    (signedChar = true → 128 ≤ b → charToInt signedChar b = (b : Int) - 256) ∧
    (b < 256 → charToInt signedChar b % 256 = (b : Int)) ∧
    (b < 256 → b ≠ 27 → charToInt signedChar b ≠ 27 ∧ charToInt signedChar b < 256) := by
  unfold charToInt
  refine ⟨?_, ?_, ?_, ?_, ?_⟩
  · intro h
    rw [if_neg (by omega)]
  · intro h
    rw [if_neg (by simp [h])]
  · intro h h1
    rw [if_pos ⟨h, h1⟩]
  · intro h
    split <;> omega
  · intro h hb
    split <;> omega

/-- Claim C15, amended: on every input stream that brings a first byte (behind
any number of time-outs of the first `read`), `editorReadKey` returns: when
that byte is not `0x1b`, the value of the plain `char` that holds it, converted
to `int`, which is the byte itself for the bytes below 128 and wherever `char`
is unsigned, and the byte minus 256 for the bytes from 128 on where `char` is
signed, in every case a value that stored to a byte gives the byte back and
that is not `0x1b`; the arrow keys for `ESC [ A/B/C/D`; `HOME_KEY` for `ESC [ H`
and `ESC O H`; `END_KEY` for `ESC [ F` and `ESC O F`; `DEL_KEY`, `PAGE_UP`,
`PAGE_DOWN`, `HOME_KEY`, `END_KEY` for `ESC [ d ~` with `d = 3, 5, 6, 7, 8`; and
the bare escape value `0x1b` for whatever else follows the escape byte, failed
look-ahead reads and unrecognised sequences alike. -/
theorem editorReadKey_spec (signedChar : Bool) (pre rest : List ReadResult)
    (hpre : ∀ r ∈ pre, r = ReadResult.timeout) :
    (∀ b : Nat, b ≠ 27 →
      editorReadKey signedChar (pre ++ ReadResult.byte b :: rest) =
        some (charToInt signedChar b, rest)) ∧
    (∀ b : Nat,
      (b < 128 → charToInt signedChar b = (b : Int)) ∧
      (signedChar = false → charToInt signedChar b = (b : Int)) ∧
      (signedChar = true → 128 ≤ b → charToInt signedChar b = (b : Int) - 256) ∧
      (b < 256 → charToInt signedChar b % 256 = (b : Int)) ∧
      (b < 256 → b ≠ 27 → charToInt signedChar b ≠ 27 ∧ charToInt signedChar b < 256)) ∧
    editorReadKey signedChar
      (pre ++ ReadResult.byte 27 :: ReadResult.byte 91 :: ReadResult.byte 65 :: rest) =
      some (ARROW_UP, rest) ∧
    editorReadKey signedChar
      (pre ++ ReadResult.byte 27 :: ReadResult.byte 91 :: ReadResult.byte 66 :: rest) =
      some (ARROW_DOWN, rest) ∧
    editorReadKey signedChar
      (pre ++ ReadResult.byte 27 :: ReadResult.byte 91 :: ReadResult.byte 67 :: rest) =
      some (ARROW_RIGHT, rest) ∧
    editorReadKey signedChar
      (pre ++ ReadResult.byte 27 :: ReadResult.byte 91 :: ReadResult.byte 68 :: rest) =
      some (ARROW_LEFT, rest) ∧
    editorReadKey signedChar
      (pre ++ ReadResult.byte 27 :: ReadResult.byte 91 :: ReadResult.byte 72 :: rest) =
      some (HOME_KEY, rest) ∧
    editorReadKey signedChar
      (pre ++ ReadResult.byte 27 :: ReadResult.byte 79 :: ReadResult.byte 72 :: rest) =
      some (HOME_KEY, rest) ∧
    editorReadKey signedChar
      (pre ++ ReadResult.byte 27 :: ReadResult.byte 91 :: ReadResult.byte 70 :: rest) =
      some (END_KEY, rest) ∧
    editorReadKey signedChar
      (pre ++ ReadResult.byte 27 :: ReadResult.byte 79 :: ReadResult.byte 70 :: rest) =
      some (END_KEY, rest) ∧
    editorReadKey signedChar
      (pre ++ ReadResult.byte 27 :: ReadResult.byte 91 :: ReadResult.byte 51 ::
        ReadResult.byte 126 :: rest) = some (DEL_KEY, rest) ∧
    editorReadKey signedChar
      (pre ++ ReadResult.byte 27 :: ReadResult.byte 91 :: ReadResult.byte 53 ::
        ReadResult.byte 126 :: rest) = some (PAGE_UP, rest) ∧
    editorReadKey signedChar
      (pre ++ ReadResult.byte 27 :: ReadResult.byte 91 :: ReadResult.byte 54 ::
        ReadResult.byte 126 :: rest) = some (PAGE_DOWN, rest) ∧
    editorReadKey signedChar
      (pre ++ ReadResult.byte 27 :: ReadResult.byte 91 :: ReadResult.byte 55 ::
        ReadResult.byte 126 :: rest) = some (HOME_KEY, rest) ∧
    editorReadKey signedChar
      (pre ++ ReadResult.byte 27 :: ReadResult.byte 91 :: ReadResult.byte 56 ::
        ReadResult.byte 126 :: rest) = some (END_KEY, rest) ∧
    (∀ tail : List ReadResult, recognisedSequence tail = false →
      ∃ rest', editorReadKey signedChar (pre ++ ReadResult.byte 27 :: tail) =
        some (27, rest')) := by
  refine ⟨fun b hb => editorReadKey_plain signedChar pre rest b hpre hb,
    fun b => charToInt_spec signedChar b,
    (editorReadKey_escape signedChar pre _ hpre).trans rfl,
    (editorReadKey_escape signedChar pre _ hpre).trans rfl,
    (editorReadKey_escape signedChar pre _ hpre).trans rfl,
    (editorReadKey_escape signedChar pre _ hpre).trans rfl,
    (editorReadKey_escape signedChar pre _ hpre).trans rfl,
    (editorReadKey_escape signedChar pre _ hpre).trans rfl,
    (editorReadKey_escape signedChar pre _ hpre).trans rfl,
    (editorReadKey_escape signedChar pre _ hpre).trans rfl,
    (editorReadKey_escape signedChar pre _ hpre).trans rfl,
    (editorReadKey_escape signedChar pre _ hpre).trans rfl,
    (editorReadKey_escape signedChar pre _ hpre).trans rfl,
    (editorReadKey_escape signedChar pre _ hpre).trans rfl,
    (editorReadKey_escape signedChar pre _ hpre).trans rfl, ?_⟩
  intro tail h
  rw [editorReadKey_escape signedChar pre tail hpre]
  exact editorReadKey_unrecognised signedChar tail h

/-- Claim C15, amended, with a signed `char`: on the stream time-out, byte
`0xC8` the key is -56, and on the stream time-out, `ESC`, `[`, `5`, `~`, `x`
the key is `PAGE_UP` and the byte `x` stays in the stream. -/
theorem editorReadKey_spec_witness :
    editorReadKey true [ReadResult.timeout, ReadResult.byte 200] = some (-56, []) ∧
    editorReadKey true (ReadResult.timeout :: ReadResult.byte 27 :: ReadResult.byte 91 ::
      ReadResult.byte 53 :: ReadResult.byte 126 :: [ReadResult.byte 120]) =
        some (PAGE_UP, [ReadResult.byte 120]) :=
  ⟨((editorReadKey_spec true [ReadResult.timeout] [] (by decide)).1 200 (by decide)).trans
      (by decide),
   (editorReadKey_spec true [ReadResult.timeout] [ReadResult.byte 120]
      (by decide)).2.2.2.2.2.2.2.2.2.2.2.1⟩

/-- Claim C15 fails as stated where plain `char` is signed: the first byte
`0xC8` = 200 is not `0x1b`, and `editorReadKey` returns -56, not 200. -/
theorem editorReadKey_counterexample :
    (200 : Nat) ≠ 27 ∧
    editorReadKey true [ReadResult.byte 200] = some (-56, []) ∧
    editorReadKey true [ReadResult.byte 200] ≠ some (200, []) := by
  decide


/-! ## Searching -/

theorem startsWith_iff : ∀ (needle hay : List Nat), startsWith needle hay = true ↔ needle <+: hay := by
  intro needle
  induction needle with
  | nil => intro hay; simp [startsWith]
  | cons n ns ih =>
    intro hay
    cases hay with
    | nil => simp [startsWith]
    | cons h hs =>
      simp only [startsWith, Bool.and_eq_true, beq_iff_eq, ih hs, List.cons_prefix_cons]

theorem scan_found (needle : List Nat) (hne : needle ≠ []) : ∀ (hay : List Nat) (off k : Nat),
    needle <+: hay.drop k → (∀ m, m < k → ¬ needle <+: hay.drop m) →
    strstr.scan needle hay off = some (off + k) := by
  intro hay
  induction hay with
  | nil =>
    intro off k h _
    simp only [List.drop_nil, List.prefix_nil] at h
    exact absurd h hne
  | cons x xs ih =>
    intro off k h hmin
    unfold strstr.scan
    cases k with
    | zero =>
      have : startsWith needle (x :: xs) = true := (startsWith_iff _ _).2 (by simpa using h)
      rw [if_pos this]
      rfl
    | succ k =>
      have h0 : ¬ startsWith needle (x :: xs) = true := by
        intro hs
        exact hmin 0 (Nat.succ_pos _) (by simpa using (startsWith_iff _ _).1 hs)
      rw [if_neg h0]
      rw [ih (off + 1) k (by simpa using h)
        (fun m hm => by simpa using hmin (m + 1) (Nat.succ_lt_succ hm))]
      congr 1
      omega

theorem scan_absent (needle : List Nat) : ∀ (hay : List Nat) (off : Nat),
    (∀ m, ¬ needle <+: hay.drop m) → strstr.scan needle hay off = none := by
  intro hay
  induction hay with
  | nil =>
    intro off h
    unfold strstr.scan
    have : ¬ startsWith needle [] = true := fun hs => h 0 ((startsWith_iff _ _).1 hs)
    rw [if_neg this]
  | cons x xs ih =>
    intro off h
    unfold strstr.scan
    have h0 : ¬ startsWith needle (x :: xs) = true :=
      fun hs => h 0 (by simpa using (startsWith_iff _ _).1 hs)
    rw [if_neg h0]
    exact ih (off + 1) (fun m => by simpa using h (m + 1))

theorem cstr_eq_self (s : List Nat) (h : 0 ∉ s) : cstr s = s := by
  unfold cstr
  rw [List.takeWhile_eq_self_iff]
  intro x hx
  have : x ≠ 0 := fun h0 => h (h0 ▸ hx)
  simpa using this

theorem editorFind_loop_found (query : List Nat) (hne : query ≠ []) (h0 : 0 ∉ query)
    (E : editorConfig) : ∀ (rows : List erow) (i0 : Int) (i : Nat) (row : erow) (k : Nat),
    rows[i]? = some row →
    (∀ j r, j < i → rows[j]? = some r → ∀ m, ¬ query <+: (cstr r.render).drop m) →
    query <+: (cstr row.render).drop k →
    (∀ m, m < k → ¬ query <+: (cstr row.render).drop m) →
    editorFind.loop query E rows i0 =
      { E with cy := i0 + i, cx := editorRowRxToCx row k, rowoff := E.numrows } := by
  intro rows
  induction rows with
  | nil => intro i0 i row k h; simp at h
  | cons r rs ih =>
    intro i0 i row k hrow hearlier hocc hmin
    unfold editorFind.loop
    cases i with
    | zero =>
      have hr : r = row := by simpa using hrow
      subst hr
      have : strstr r.render query = some k := by
        unfold strstr
        rw [cstr_eq_self query h0, scan_found query hne _ 0 k hocc hmin, Nat.zero_add]
      rw [this]
      simp
    | succ i =>
      have : strstr r.render query = none := by
        unfold strstr
        rw [cstr_eq_self query h0]
        exact scan_absent query _ 0 (hearlier 0 r (Nat.succ_pos _) (by simp))
      rw [this]
      simp only []
      rw [ih (i0 + 1) i row k (by simpa using hrow)
        (fun j r' hj hr' => hearlier (j + 1) r' (Nat.succ_lt_succ hj) (by simpa using hr'))
        hocc hmin]
      simp only [editorConfig.mk.injEq, and_true, true_and]
      push_cast
      omega

theorem editorFind_loop_absent (query : List Nat) (h0 : 0 ∉ query) (E : editorConfig) :
    ∀ (rows : List erow) (i0 : Int),
    (∀ r ∈ rows, ∀ m, ¬ query <+: (cstr r.render).drop m) →
    editorFind.loop query E rows i0 = E := by
  intro rows
  induction rows with
  | nil => intro i0 _; rfl
  | cons r rs ih =>
    intro i0 h
    unfold editorFind.loop
    have : strstr r.render query = none := by
      unfold strstr
      rw [cstr_eq_self query h0]
      exact scan_absent query _ 0 (h r (List.mem_cons_self _ _))
    rw [this]
    exact ih (i0 + 1) (fun r' hr' => h r' (List.mem_cons_of_mem _ hr'))

/-- Claim C14, amended: for every buffer and every non-empty query without a
NUL byte, with each line's render read as the C string that `strstr` sees (its
bytes before the first NUL byte, which is all of it when the line holds no NUL
byte): if line `i` is the first line whose render contains the query and `k` is
the offset of the first occurrence there, `editorFind` sets `cy = i` and
`cx = editorRowRxToCx(line i, k)`; if no line's render contains the query,
`editorFind` leaves the state, and so `cx` and `cy`, unchanged. -/
theorem editorFind_spec (E : editorConfig) (query : List Nat)
    (hne : query ≠ []) (h0 : 0 ∉ query) :
    (∀ (i : Nat) (row : erow) (k : Nat),
      E.row[i]? = some row →
      (∀ j r, j < i → E.row[j]? = some r → ∀ m, ¬ query <+: (cstr r.render).drop m) →
      query <+: (cstr row.render).drop k →
      (∀ m, m < k → ¬ query <+: (cstr row.render).drop m) →
      editorFind E (some query) =
        { E with cy := i, cx := editorRowRxToCx row k, rowoff := E.numrows }) ∧
    ((∀ r ∈ E.row, ∀ m, ¬ query <+: (cstr r.render).drop m) →
      editorFind E (some query) = E) ∧
    (∀ r : erow, 0 ∉ r.render → cstr r.render = r.render) := by
  refine ⟨?_, ?_, fun r hr => cstr_eq_self _ hr⟩
  · intro i row k hrow hearlier hocc hmin
    unfold editorFind
    simp only []
    rw [editorFind_loop_found query hne h0 E E.row 0 i row k hrow hearlier hocc hmin]
    simp
  · intro h
    exact editorFind_loop_absent query h0 E E.row 0 h

/-- Claim C14, amended, at the scenario of the specification: the query `"cd"`
over the document `["ab", "xcdy"]` gives `cy = 1` and `cx = 1`. -/
theorem editorFind_spec_witness :
    editorFind (docOf [[97, 98], [120, 99, 100, 121]]) (some [99, 100]) =
      { docOf [[97, 98], [120, 99, 100, 121]] with cy := 1, cx := 1, rowoff := 2 } := by
  have h := (editorFind_spec (docOf [[97, 98], [120, 99, 100, 121]]) [99, 100]
    (by decide) (by decide)).1 1 ⟨[120, 99, 100, 121], [120, 99, 100, 121]⟩ 1 (by decide)
    (by
      intro j r hj hr m hp
      have hj0 : j = 0 := by omega
      subst hj0
      have hr' : r = ⟨[97, 98], [97, 98]⟩ := by
        have : (docOf [[97, 98], [120, 99, 100, 121]]).row[0]? =
            some ⟨[97, 98], [97, 98]⟩ := by decide
        exact Option.some.inj (hr.symm.trans this)
      subst hr'
      have hmem : (99 : Nat) ∈ (cstr [97, 98]).drop m := hp.subset (List.mem_cons_self _ _)
      have : (99 : Nat) ∈ cstr [97, 98] := List.mem_of_mem_drop hmem
      exact absurd this (by decide))
    (by decide)
    (by
      intro m hm
      have hm0 : m = 0 := by omega
      subst hm0
      decide)
  rw [h]
  decide

/-- Claim C14 fails as stated on a line with a NUL byte: in the document
`["ab", "x\0cd"]` the render of line 1 contains the query `"cd"` at offset 2 and
the render of line 0 does not contain it, but `strstr` stops at the NUL byte and
`editorFind` leaves the cursor at line 0, column 0 instead of line 1,
column 2. -/
theorem editorFind_counterexample :
    (docOf [[97, 98], [120, 0, 99, 100]]).row.map erow.render =
      [[97, 98], [120, 0, 99, 100]] ∧
    ([99, 100] : List Nat) <+: ([120, 0, 99, 100] : List Nat).drop 2 ∧
    editorRowRxToCx ⟨[120, 0, 99, 100], [120, 0, 99, 100]⟩ 2 = 2 ∧
    (editorFind (docOf [[97, 98], [120, 0, 99, 100]]) (some [99, 100])).cy = 0 ∧
    (editorFind (docOf [[97, 98], [120, 0, 99, 100]]) (some [99, 100])).cx = 0 := by
  decide


/-! ## The Delete key -/

set_option maxRecDepth 20000 in
/-- Claim C19 fails on the Delete key.  From the empty document, the key `a`
leaves the line `"a"` with the cursor at column 1, its end; `DEL_KEY` then moves
the cursor to column 2 and `editorDelChar` calls `editorRowDelChar(row, 1)` with
`row.size = 1`, an index that is not below the size.  From the empty document,
Enter and Arrow Up leave the empty line `""` with the cursor at column 0;
`DEL_KEY` then makes the call `editorRowDelChar(row, 0)` with `row.size = 0`,
which takes the size below 0 and has no result. -/
theorem editorDelChar_invalid_column :
    processKeys none false [97] (initEditor 24 80) KILO_QUIT_CONFIRM =
      some (Outcome.running
        { initEditor 24 80 with cx := 1, dirty := 2, row := [⟨[97], [97]⟩] }
        KILO_QUIT_CONFIRM) ∧
    editorDelChar.rowDelCharCall
      (editorMoveCursor
        { initEditor 24 80 with cx := 1, dirty := 2, row := [⟨[97], [97]⟩] } ARROW_RIGHT) =
      some (⟨[97], [97]⟩, 1) ∧
    ¬ ((1 : Int) < (⟨[97], [97]⟩ : erow).size) ∧
    processKeys none false [97, DEL_KEY] (initEditor 24 80) KILO_QUIT_CONFIRM =
      some (Outcome.running
        { initEditor 24 80 with cx := 1, dirty := 3, row := [⟨[], []⟩] }
        KILO_QUIT_CONFIRM) ∧
    processKeys none false [13, ARROW_UP] (initEditor 24 80) KILO_QUIT_CONFIRM =
      some (Outcome.running
        { initEditor 24 80 with dirty := 1, row := [⟨[], []⟩] }
        KILO_QUIT_CONFIRM) ∧
    editorDelChar.rowDelCharCall
      (editorMoveCursor { initEditor 24 80 with dirty := 1, row := [⟨[], []⟩] } ARROW_RIGHT) =
      some (⟨[], []⟩, 0) ∧
    ¬ ((0 : Int) < (⟨[], []⟩ : erow).size) ∧
    processKeys none false [13, ARROW_UP, DEL_KEY] (initEditor 24 80) KILO_QUIT_CONFIRM =
      none := by
  decide

end Pico
